import Mathlib

/-!
Verification of the py-lz4framed binding (src/lz4framed/py-lz4framed.c).

The C file is a Python binding over the external LZ4F frame codec
(liblz4's lz4frame): argument validation, the growable output buffer of
one-shot decompression, the chunk-list construction of incremental
decompression, and the context plumbing all live in the binding and are
embedded here directly from the C source.  The LZ4F codec itself
(LZ4F_compressFrame, LZ4F_decompress, LZ4F_getFrameInfo, ...) is not part
of this repository; it is modelled from the specification's description of
the frame format (header with magic / flag byte / block descriptor /
optional 8-byte content size / header-checksum byte, a sequence of
size-prefixed blocks that are either stored or compressed, a four-byte end
marker and an optional content checksum), parameterized over an abstract
block codec and checksum functions.

NOTE on machine arithmetic: all sizes are modelled as `Nat`; the one C
idiom that depends on machine integer representation (a C `int` parsed
into a `size_t` variable in `_lz4framed_decompress_update`) is modelled
explicitly with `% 2^32` in `chunkLenStore`.
-/

set_option linter.unusedVariables false

/-! ## Byte-level helpers -/

/-- Little-endian 32-bit encoding of `n % 2^32` as four byte values. -/
def le32 (n : Nat) : List Nat :=
  [n % 256, n / 2^8 % 256, n / 2^16 % 256, n / 2^24 % 256]

/-- Little-endian 64-bit encoding of `n % 2^64` as eight byte values. -/
def le64 (n : Nat) : List Nat :=
  [n % 256, n / 2^8 % 256, n / 2^16 % 256, n / 2^24 % 256,
   n / 2^32 % 256, n / 2^40 % 256, n / 2^48 % 256, n / 2^56 % 256]

/-- Read a little-endian 32-bit value from the first four bytes of a list. -/
def readLe32 (l : List Nat) : Nat :=
  l.getD 0 0 + 2^8 * l.getD 1 0 + 2^16 * l.getD 2 0 + 2^24 * l.getD 3 0

/-- Read a little-endian 64-bit value from the first eight bytes of a list. -/
def readLe64 (l : List Nat) : Nat :=
  l.getD 0 0 + 2^8 * l.getD 1 0 + 2^16 * l.getD 2 0 + 2^24 * l.getD 3 0 +
  2^32 * l.getD 4 0 + 2^40 * l.getD 5 0 + 2^48 * l.getD 6 0 + 2^56 * l.getD 7 0

/-! ## Block size ids (embedded from the C source, lines 59-83; the numeric
values of the `LZ4F_blockSizeID_t` enum are the fixed external contract of
lz4frame.h: default = 0, max64KB = 4 ... max4MB = 7, which the C code
relies on via `id -= 4`). -/

def LZ4F_default : Int := 0

def LZ4F_max64KB : Int := 4

def LZ4F_max256KB : Int := 5

def LZ4F_max1MB : Int := 6

def LZ4F_max4MB : Int := 7

/-- C `_valid_lz4f_block_size_id` (py-lz4framed.c lines 59-70). -/
def valid_lz4f_block_size_id (bid : Int) : Bool :=
  bid == LZ4F_default || bid == LZ4F_max64KB || bid == LZ4F_max256KB ||
  bid == LZ4F_max1MB || bid == LZ4F_max4MB

/-- C `_lz4f_block_size_from_id` (py-lz4framed.c lines 72-83): table lookup
`{64 KB, 256 KB, 1 MB, 4 MB}` after mapping `LZ4F_default` to
`LZ4F_max64KB` and subtracting 4. -/
def lz4f_block_size_from_id (bid : Int) : Nat :=
  if !valid_lz4f_block_size_id bid then 0
  else
    let i := if bid == LZ4F_default then LZ4F_max64KB else bid
    [64 * 2^10, 256 * 2^10, 2^20, 4 * 2^20].getD (i - 4).toNat 0

/-! ## Error model.

The binding raises Python `ValueError` for argument problems (empty input,
invalid option, invalid context) and `Lz4FramedError` carrying the LZ4F
error name and code for codec failures (macro `BAIL_ON_LZ4_ERROR`,
lines 21-38).  `ErrCode.outOfFuel` is an artifact of the fuel-based
embedding of the decode loops and corresponds to no C behavior. -/

inductive ErrCode where
  | generic
  | maxBlockSize_invalid
  | headerVersion_wrong
  | frameType_unknown
  | frameHeader_incomplete
  | headerChecksum_invalid
  | contentChecksum_invalid
  | decompressionFailed
  | outOfFuel
deriving DecidableEq

inductive PyErr where
  | inputEmpty
  | invalidOption
  | invalidContext
  | lz4 (c : ErrCode)
deriving DecidableEq

/-! ## The modelled LZ4F codec.

Modelled from the spec: the external block compressor / decompressor and
checksum primitives are out of scope of the repository ("the LZ4 block
compression/decompression algorithm itself is assumed to be provided by an
external codec library"; "checksum primitives are assumed available as a
black-box function").  They are abstracted as a structure with a roundtrip
law; `comp` receives the compression level and (in linked mode) the
history of previously seen frame content. -/

structure BlockCodec where
  comp : Int → List Nat → List Nat → List Nat
  decomp : List Nat → List Nat → List Nat
  hchk : List Nat → Nat
  cchk : List Nat → Nat
  comp_decomp : ∀ lvl h b, decomp h (comp lvl h b) = b

/-- Frame metadata extracted from a parsed header (cf. `LZ4F_frameInfo_t`). -/
structure FrameInfo where
  contentSize : Nat
  blockSizeID : Nat
  blockModeLinked : Bool
  contentChecksum : Bool
deriving DecidableEq

/-! ## Frame header.

Modelled from the spec (section 6): magic number, frame descriptor
(version bits = 01, block-independence bit, content-checksum bit,
content-size bit), block descriptor holding the block size id, an optional
8-byte little-endian content size, and a one-byte header checksum over the
descriptor bytes. -/

def lz4Magic : List Nat := [4, 34, 77, 24]

/-- Effective block size id written into a frame: the codec replaces the
`default` id 0 by `max64KB` = 4. -/
def effBlockId (bid : Int) : Nat := (if bid == 0 then (4 : Int) else bid).toNat

/-- Frame descriptor flag byte: version 01 in bits 7-6, block-independence
bit 5, content-size bit 3, content-checksum bit 2. -/
def flgByte (linked : Bool) (cs : Nat) (cchk : Bool) : Nat :=
  64 + (if linked then 0 else 32) + (if 0 < cs then 8 else 0) + (if cchk then 4 else 0)

/-- Frame descriptor bytes covered by the header checksum. -/
def headerDesc (bid : Int) (linked cchk : Bool) (cs : Nat) : List Nat :=
  flgByte linked cs cchk :: (16 * effBlockId bid) :: (if 0 < cs then le64 cs else [])

/-- Complete frame header: magic, descriptor, one-byte header checksum. -/
def headerBytes (M : BlockCodec) (bid : Int) (linked cchk : Bool) (cs : Nat) : List Nat :=
  lz4Magic ++ headerDesc bid linked cchk cs ++ [M.hchk (headerDesc bid linked cchk cs) % 256]

/-- Length of a frame header: 15 bytes when the content size is declared,
7 bytes when it is not. -/
def headerLen (cs : Nat) : Nat := if 0 < cs then 15 else 7

/-- Result of attempting to parse a frame header: distinguishes "not
enough bytes yet" from malformed-header errors. -/
inductive HeaderR where
  | incomplete (need : Nat)
  | errc (c : ErrCode)
  | okHdr (info : FrameInfo) (hlen : Nat)
deriving DecidableEq

/-- Modelled from the spec: the codec's header parser.  Fewer than 7 bytes
(the minimal header) is `incomplete`; then the magic, version bits, block
size id and the header checksum byte are validated, with a declared
content size extending the header to 15 bytes (insufficient bytes for the
extended header again `incomplete`). -/
def parseHeaderM (M : BlockCodec) (l : List Nat) : HeaderR :=
  if l.length < 7 then .incomplete (7 - l.length)
  else if l.take 4 ≠ lz4Magic then .errc .frameType_unknown
  else
    let flg := l.getD 4 0
    if flg / 64 ≠ 1 then .errc .headerVersion_wrong
    else
      let hlen := if flg / 8 % 2 == 1 then 15 else 7
      if l.length < hlen then .incomplete (hlen - l.length)
      else
        let bd := l.getD 5 0
        if bd / 16 < 4 ∨ 7 < bd / 16 then .errc .maxBlockSize_invalid
        else if l.getD (hlen - 1) 0 ≠ M.hchk ((l.drop 4).take (hlen - 5)) % 256 then
          .errc .headerChecksum_invalid
        else
          .okHdr ⟨if flg / 8 % 2 == 1 then readLe64 ((l.drop 6).take 8) else 0,
                  bd / 16, flg / 32 % 2 == 0, flg / 4 % 2 == 1⟩ hlen

/-! ## Block units.

Modelled from the spec: each block is a 4-byte little-endian size prefix
whose top bit marks a stored (uncompressed) block, followed by the
payload.  The encoder stores the block uncompressed unless the external
compressor produced a strictly smaller non-empty result. -/

/-- Encode one block as a size-prefixed unit. -/
def encodeBlockUnit (M : BlockCodec) (lvl : Int) (linked : Bool) (hist blk : List Nat) :
    List Nat :=
  let c := M.comp lvl (if linked then hist else []) blk
  if 0 < c.length ∧ c.length < blk.length then le32 c.length ++ c
  else le32 (2^31 + blk.length) ++ blk

/-- Block-segmentation and encoding machine: greedily take full blocks of
size `bs` off the front of `buf`, returning the encoded units, the raw
blocks, the extended history and the unprocessed remainder.  The fuel is
always instantiated with `buf.length`. -/
def emitBL (M : BlockCodec) (lvl : Int) (linked : Bool) (bs : Nat) :
    Nat → List Nat → List Nat → List (List Nat) × List (List Nat) × List Nat × List Nat
  | 0, hist, buf => ([], [], hist, buf)
  | fuel + 1, hist, buf =>
    if 0 < bs ∧ bs ≤ buf.length then
      let blk := buf.take bs
      let r := emitBL M lvl linked bs fuel (hist ++ blk) (buf.drop bs)
      (encodeBlockUnit M lvl linked hist blk :: r.1, blk :: r.2.1, r.2.2)
    else ([], [], hist, buf)

/-- All units and blocks of a whole content buffer, including the final
partial block. -/
def contentParts (M : BlockCodec) (lvl : Int) (linked : Bool) (bs : Nat) (b : List Nat) :
    List (List Nat) × List (List Nat) :=
  let r := emitBL M lvl linked bs b.length [] b
  (r.1 ++ (if r.2.2.2 = [] then [] else [encodeBlockUnit M lvl linked r.2.2.1 r.2.2.2]),
   r.2.1 ++ (if r.2.2.2 = [] then [] else [r.2.2.2]))

/-- Frame trailer: four-byte end marker and optional content checksum. -/
def trailerFor (M : BlockCodec) (cchk : Bool) (content : List Nat) : List Nat :=
  [0, 0, 0, 0] ++ (if cchk then le32 (M.cchk content % 2^32) else [])

/-! ## Compression preferences and contexts (binding side). -/

structure Prefs where
  blockSizeID : Int
  blockModeLinked : Bool
  contentChecksum : Bool
  autoFlush : Bool
  level : Int
deriving DecidableEq

/-- Compression context: preferences locked in at `compress_begin`, the
frame history seen so far (needed by linked-mode block compression and by
the trailing content checksum) and the buffered partial block. -/
structure CCtx where
  prefs : Prefs
  hist : List Nat
  pending : List Nat
deriving DecidableEq

/-- Modelled from the spec: `LZ4F_compressFrame` emits the header
(declaring `cs` as content size), the block units of the content, and the
trailer. -/
def frameBytes (M : BlockCodec) (pf : Prefs) (cs : Nat) (b : List Nat) : List Nat :=
  headerBytes M pf.blockSizeID pf.blockModeLinked pf.contentChecksum cs ++
  (contentParts M pf.level pf.blockModeLinked (lz4f_block_size_from_id pf.blockSizeID) b).1.flatten ++
  trailerFor M pf.contentChecksum b

/-- C `_lz4framed_compress` (lines 145-202): rejects empty input, an
invalid block size id and a compression level outside 0..16, then invokes
the one-shot frame compressor with `contentSize` set to the input length
(line 183). -/
def lz4framed_compress (M : BlockCodec) (b : List Nat) (bid : Int)
    (linked checksum : Bool) (level : Int) : Except PyErr (List Nat) :=
  if b.length ≤ 0 then .error .inputEmpty
  else if !valid_lz4f_block_size_id bid then .error .invalidOption
  else if level < 0 ∨ 16 < level then .error .invalidOption
  else .ok (frameBytes M ⟨bid, linked, checksum, false, level⟩ b.length b)

/-- C `_lz4framed_compress_begin` (lines 411-466): validates the block
size id and the level, then emits the frame header.  The preferences
passed to `LZ4F_compressBegin` carry no content size (the `prefs` struct
is zero-initialized and `contentSize` is never assigned, lines 416 and
449-453), so the emitted header never declares one. -/
def lz4framed_compress_begin (M : BlockCodec) (bid : Int)
    (linked checksum autoflush : Bool) (level : Int) : Except PyErr (List Nat × CCtx) :=
  if !valid_lz4f_block_size_id bid then .error .invalidOption
  else if level < 0 ∨ 16 < level then .error .invalidOption
  else .ok (headerBytes M bid linked checksum 0,
            ⟨⟨bid, linked, checksum, autoflush, level⟩, [], []⟩)

/-- C `_lz4framed_compress_update` (lines 485-527) over the modelled
`LZ4F_compressUpdate`: rejects empty input; otherwise appends the data to
the buffered remainder, compresses every complete block, and (with
`autoFlush`) also flushes the final partial block. -/
def lz4framed_compress_update (M : BlockCodec) (ctx : CCtx) (data : List Nat) :
    Except PyErr (List Nat × CCtx) :=
  if data.length ≤ 0 then .error .inputEmpty
  else
    let bs := lz4f_block_size_from_id ctx.prefs.blockSizeID
    let buf := ctx.pending ++ data
    let r := emitBL M ctx.prefs.level ctx.prefs.blockModeLinked bs buf.length ctx.hist buf
    if ctx.prefs.autoFlush ∧ r.2.2.2 ≠ [] then
      .ok ((r.1 ++ [encodeBlockUnit M ctx.prefs.level ctx.prefs.blockModeLinked r.2.2.1 r.2.2.2]).flatten,
           ⟨ctx.prefs, r.2.2.1 ++ r.2.2.2, []⟩)
    else .ok (r.1.flatten, ⟨ctx.prefs, r.2.2.1, r.2.2.2⟩)

/-- C `_lz4framed_compress_end` (lines 544-572) over the modelled
`LZ4F_compressEnd`: flushes the buffered remainder as a final block,
emits the end marker and the optional content checksum, and resets the
context. -/
def lz4framed_compress_end (M : BlockCodec) (ctx : CCtx) : Except PyErr (List Nat × CCtx) :=
  .ok ((if ctx.pending = [] then []
        else encodeBlockUnit M ctx.prefs.level ctx.prefs.blockModeLinked ctx.hist ctx.pending) ++
       trailerFor M ctx.prefs.contentChecksum (ctx.hist ++ ctx.pending),
       ⟨ctx.prefs, [], []⟩)

/-- Feed a sequence of chunks through `compress_update` calls,
concatenating the produced outputs. -/
def runUpdates (M : BlockCodec) : CCtx → List (List Nat) → Except PyErr (List Nat × CCtx)
  | ctx, [] => .ok ([], ctx)
  | ctx, c :: cs =>
    match lz4framed_compress_update M ctx c with
    | .error e => .error e
    | .ok (o, ctx') =>
      match runUpdates M ctx' cs with
      | .error e => .error e
      | .ok (o', ctx'') => .ok (o ++ o', ctx'')

/-- The full incremental pipeline `compress_begin` / `compress_update`* /
`compress_end` on a fresh context (with `autoflush` left at its default,
false), returning the concatenation of all outputs. -/
def runIncremental (M : BlockCodec) (bid : Int) (linked checksum : Bool) (level : Int)
    (chunks : List (List Nat)) : Except PyErr (List Nat) :=
  match lz4framed_compress_begin M bid linked checksum false level with
  | .error e => .error e
  | .ok (h, ctx) =>
    match runUpdates M ctx chunks with
    | .error e => .error e
    | .ok (o, ctx') =>
      match lz4framed_compress_end M ctx' with
      | .error e => .error e
      | .ok (oe, _) => .ok (h ++ o ++ oe)

/-- A trivial instance of the abstract block codec whose compressor never
shrinks anything, so every block is stored; used for concrete witnesses. -/
def trivM : BlockCodec where
  comp := fun _ _ b => b
  decomp := fun _ c => c
  hchk := fun l => l.sum
  cchk := fun l => l.sum
  comp_decomp := fun _ _ _ => rfl

/-! ## Decompression model.

Modelled from the spec: the frame reader's state machine.  A context is
either still gathering header bytes, or inside a frame holding the parsed
`FrameInfo`, all content decoded so far (the linked-mode history), decoded
bytes not yet delivered to the caller, and consumed-but-unparsed input
bytes of a partial block unit. -/

structure DFrame where
  info : FrameInfo
  decoded : List Nat
  pending : List Nat
  inBuf : List Nat
deriving DecidableEq

inductive DStage where
  | awaitHeader (buf : List Nat)
  | inFrame (f : DFrame)
deriving DecidableEq

/-- Modelled from the spec: one `LZ4F_decompress` call.  It first flushes
decoded-but-undelivered bytes into the destination; while destination
space remains it parses and decodes complete block units, buffering
incomplete ones and reporting a positive input hint; the hint becomes 0
exactly when the end marker (and, if enabled, a matching content
checksum) has been consumed, at which point the context resets so a
concatenated frame can follow.  When the destination fills with decoded
output still undelivered, the call stops consuming input.  Returns the
new stage, the bytes written, the number of input bytes consumed and the
input hint. -/
def goD (M : BlockCodec) :
    Nat → DStage → Nat → List Nat → Except ErrCode (DStage × List Nat × Nat × Nat)
  | 0, _, _, _ => .error .outOfFuel
  | fuel + 1, .awaitHeader buf, cap, src =>
    match parseHeaderM M (buf ++ src) with
    | .incomplete need => .ok (.awaitHeader (buf ++ src), [], src.length, need)
    | .errc c => .error c
    | .okHdr info hlen =>
      match goD M fuel (.inFrame ⟨info, [], [], buf.drop hlen⟩) cap
              (src.drop (hlen - buf.length)) with
      | .error e => .error e
      | .ok (st', w, r, h) => .ok (st', w, (hlen - buf.length) + r, h)
  | fuel + 1, .inFrame f, cap, src =>
    if cap < f.pending.length then
      .ok (.inFrame ⟨f.info, f.decoded, f.pending.drop cap, f.inBuf⟩, f.pending.take cap, 0, 4)
    else
      let cap1 := cap - f.pending.length
      let all := f.inBuf ++ src
      if all.length < 4 then
        .ok (.inFrame ⟨f.info, f.decoded, [], all⟩, f.pending, src.length, 4 - all.length)
      else
        let szw := readLe32 (all.take 4)
        if szw = 0 then
          if f.info.contentChecksum then
            if all.length < 8 then
              .ok (.inFrame ⟨f.info, f.decoded, [], all⟩, f.pending, src.length, 8 - all.length)
            else if readLe32 ((all.drop 4).take 4) ≠ M.cchk f.decoded % 2^32 then
              .error .contentChecksum_invalid
            else .ok (.awaitHeader [], f.pending, 8 - f.inBuf.length, 0)
          else .ok (.awaitHeader [], f.pending, 4 - f.inBuf.length, 0)
        else
          let blen := szw % 2^31
          if blen = 0 then .error .decompressionFailed
          else if all.length < 4 + blen then
            .ok (.inFrame ⟨f.info, f.decoded, [], all⟩, f.pending, src.length, 4 + blen - all.length)
          else
            let payload := (all.drop 4).take blen
            let dec := if 2^31 ≤ szw then payload
                       else M.decomp (if f.info.blockModeLinked then f.decoded else []) payload
            let consumed := (4 + blen) - f.inBuf.length
            match goD M fuel (.inFrame ⟨f.info, f.decoded ++ dec, dec, f.inBuf.drop (4 + blen)⟩)
                    cap1 (src.drop consumed) with
            | .error e => .error e
            | .ok (st', w, r, h) => .ok (st', f.pending ++ w, consumed + r, h)

/-- Modelled from the spec: `LZ4F_getFrameInfo`.  If the header has
already been parsed it returns the stored `FrameInfo` without consuming
anything and leaves the context untouched; otherwise it attempts to parse
a header from the supplied bytes, failing with `frameHeader_incomplete`
when there are not enough.  Returns the info, the number of bytes
consumed, the input hint and the new stage. -/
def LZ4F_getFrameInfoM (M : BlockCodec) (st : DStage) (src : List Nat) :
    Except ErrCode (FrameInfo × Nat × Nat × DStage) :=
  match st with
  | .inFrame f => .ok (f.info, 0, 4, .inFrame f)
  | .awaitHeader buf =>
    match parseHeaderM M (buf ++ src) with
    | .okHdr info hlen =>
      .ok (info, hlen - buf.length, 4, .inFrame ⟨info, [], [], buf.drop hlen⟩)
    | .incomplete _ => .error .frameHeader_incomplete
    | .errc c => .error c

/-- The dictionary returned by `get_frame_info` (lines 616-631). -/
structure FrameInfoDict where
  input_hint : Nat
  length : Nat
  block_size_id : Nat
  block_mode_linked : Bool
  checksum : Bool
deriving DecidableEq

/-- C `_lz4framed_get_frame_info` (lines 597-640): invokes
`LZ4F_getFrameInfo` with a NULL source pointer and `input_read = 0` —
i.e. with no input bytes at all — and builds the result dictionary.  On
error the context is left as it was. -/
def lz4framed_get_frame_info (M : BlockCodec) (st : DStage) :
    Except PyErr FrameInfoDict × DStage :=
  match LZ4F_getFrameInfoM M st [] with
  | .ok (info, _, hint, st') =>
    (.ok ⟨hint, info.contentSize, info.blockSizeID, info.blockModeLinked,
          info.contentChecksum⟩, st')
  | .error c => (.error (.lz4 c), st)

/-- The buffer-growing decode loop of C `_lz4framed_decompress`
(lines 284-310), embedded with the written bytes kept as a list `wr`
whose end corresponds to the C write position `output_pos`
(`output_pos - output_str = output_len - output_remaining = wr.length`).
`len` mirrors `output_len`, `rem` mirrors `output_remaining`; on growth
the C code executes `output_remaining = output_written += output_len;
output_len *= 2;` and re-derives the write offset, after warning (via
`PyErr_WarnEx`, non-fatal under the default warning filter) when the
frame had declared a content size.  Returns the decoded bytes, the list
of allocation sizes and the number of warnings issued. -/
def decompressLoop (M : BlockCodec) (cs : Nat) :
    Nat → DStage → List Nat → Nat → Nat → List Nat → Nat → List Nat → Nat →
    Except ErrCode (List Nat × List Nat × Nat)
  | 0, _, _, _, _, _, _, _, _ => .error .outOfFuel
  | fuel + 1, st, wr, len, rem, inp, hint, allocs, warns =>
    if hint = 0 then .ok (wr, allocs, warns)
    else
      match goD M (inp.length + 2) st rem inp with
      | .error e => .error e
      | .ok (st', w, r, h) =>
        let wr' := wr ++ w
        let rem' := rem - w.length
        let inp' := inp.drop r
        if h = 0 then .ok (wr', allocs, warns)
        else if 0 < inp'.length then
          decompressLoop M cs fuel st' wr' (2 * len) (rem' + len) inp' h
            (allocs ++ [2 * len]) (if 0 < cs then warns + 1 else warns)
        else decompressLoop M cs fuel st' wr' len rem' inp' h allocs warns

/-- C `_lz4framed_decompress` (lines 227-320): rejects empty input and a
non-positive `buffer_size`; parses the header from the input via
`LZ4F_getFrameInfo`; allocates the output at exactly the declared content
size when one is present (with `opt.stableDst = 1`), and otherwise at
`MAX(buffer_size, input_remaining)`; then runs the decode loop.  Returns
the decoded bytes together with the allocation-size trace and the warning
count (observational components of the embedding). -/
def lz4framed_decompress (M : BlockCodec) (input : List Nat) (buffer_size : Int)
    (fuel : Nat) : Except PyErr (List Nat × List Nat × Nat) :=
  if input.length ≤ 0 then .error .inputEmpty
  else if buffer_size ≤ 0 then .error .invalidOption
  else
    match LZ4F_getFrameInfoM M (.awaitHeader []) input with
    | .error c => .error (.lz4 c)
    | .ok (info, read, hint, st) =>
      let inp := input.drop read
      let len0 := if 0 < info.contentSize then info.contentSize
                  else max buffer_size.toNat inp.length
      match decompressLoop M info.contentSize fuel st [] len0 len0 inp hint [len0] 0 with
      | .error e => .error (.lz4 e)
      | .ok res => .ok res

/-- The value stored into the C variable `size_t chunk_len` when the
Python-level `chunk_len` argument is parsed: the variable is declared
`size_t` but parsed with format code `"i"` (a C `int`, line 667), so
(on a little-endian LP64 platform) the 32-bit two's-complement pattern of
the argument lands in the low half of the 64-bit variable whose prior
value 65536 has zero high bits — i.e. the stored value is the argument
modulo `2^32`. -/
def chunkLenStore (i : Int) : Nat := (i % (2^32 : Int)).toNat

/-- The chunk-collecting decode loop of C `_lz4framed_decompress_update`
(lines 707-742): while input remains and the hint is positive, allocate a
fresh chunk whenever the current one is full (appending the full one to
the list), and decode into the current chunk.  After the loop the final
chunk is truncated to the bytes actually produced and appended only if it
is non-empty.  The current chunk is kept as written bytes `wr` plus the
remaining space `rem` (C `chunk_remaining`). -/
def duLoop (M : BlockCodec) (clen : Nat) :
    Nat → DStage → List Nat → Nat → List (List Nat) → List Nat → Nat →
    Except ErrCode (List (List Nat) × Nat × DStage)
  | 0, _, _, _, _, _, _ => .error .outOfFuel
  | fuel + 1, st, wr, rem, chunks, inp, hint =>
    if 0 < inp.length ∧ 0 < hint then
      let next := if rem = 0 then (chunks ++ [wr], ([] : List Nat), clen) else (chunks, wr, rem)
      match goD M (inp.length + 2) st next.2.2 inp with
      | .error e => .error e
      | .ok (st', w, r, h) =>
        duLoop M clen fuel st' (next.2.1 ++ w) (next.2.2 - w.length) next.1 (inp.drop r) h
    else
      .ok ((if rem < clen then chunks ++ [wr] else chunks), hint, st)

/-- C `_lz4framed_decompress_update` (lines 664-751): rejects empty input,
stores the `chunk_len` argument into the `size_t` variable (see
`chunkLenStore`), rejects it only when the stored value is zero (the
C test `chunk_len <= 0` on an unsigned type), and runs the chunk loop
starting with one fresh chunk and `input_size_hint = 1`.  Returns the
chunk list, the final input hint and the final context stage. -/
def lz4framed_decompress_update (M : BlockCodec) (st : DStage) (input : List Nat)
    (chunkArg : Int) (fuel : Nat) : Except PyErr (List (List Nat) × Nat × DStage) :=
  if input.length ≤ 0 then .error .inputEmpty
  else
    let clen := chunkLenStore chunkArg
    if clen = 0 then .error .invalidOption
    else
      match duLoop M clen fuel st [] clen [] input 1 with
      | .error e => .error (.lz4 e)
      | .ok res => .ok res

/-- Helpers for stating decoder facts: the input needed before the next
unit (or the trailer) can be decoded. -/
def headNeed (us : List (List Nat)) (cchk : Bool) : Nat :=
  match us with
  | u :: _ => u.length
  | [] => if cchk then 8 else 4

/-- The proposition that `u` is a well-formed block unit decoding to the
non-empty block `blk` given history `hist`. -/
def unitIsFor (M : BlockCodec) (linked : Bool) (hist blk u : List Nat) : Prop :=
  5 ≤ u.length ∧ readLe32 (u.take 4) ≠ 0 ∧
  u.length = 4 + readLe32 (u.take 4) % 2^31 ∧
  (if 2^31 ≤ readLe32 (u.take 4) then u.drop 4 = blk
   else M.decomp (if linked then hist else []) (u.drop 4) = blk) ∧
  blk ≠ []

/-- The units `us` decode, in order and with accumulating history, to the
blocks `ds`. -/
def unitsFor (M : BlockCodec) (linked : Bool) : List Nat → List (List Nat) → List (List Nat) → Prop
  | _, [], [] => True
  | hist, u :: us, d :: ds => unitIsFor M linked hist d u ∧ unitsFor M linked (hist ++ d) us ds
  | _, _ :: _, [] => False
  | _, [], _ :: _ => False

/-- A genuinely compressing instance of the abstract block codec (a toy
run-length coder for blocks of 7s with a self-describing prefix), used
for witnesses that exercise buffer growth. -/
def rleM : BlockCodec where
  comp := fun _ _ b => if b.all (· == 7) ∧ b.length < 2^32 then 0 :: le32 b.length else 1 :: b
  decomp := fun _ c =>
    match c with
    | 0 :: rest => List.replicate (readLe32 rest) 7
    | 1 :: rest => rest
    | _ => []
  hchk := fun l => l.sum
  cchk := fun l => l.sum
  comp_decomp := by
    intro lvl h b
    dsimp only
    by_cases hb : b.all (· == 7) ∧ b.length < 2^32
    · rw [if_pos hb]
      show List.replicate (readLe32 (le32 b.length)) 7 = b
      have h1 : readLe32 (le32 b.length) = b.length := by
        simp only [readLe32, le32, List.getD, List.get?, Option.getD_some]
        omega
      rw [h1]
      have := hb.1
      rw [List.all_eq_true] at this
      exact (List.eq_replicate_length.mpr (fun x hx => by simpa using this x hx)).symm
    · rw [if_neg hb]

/-- The size of the first output allocation made by `_lz4framed_decompress`
(lines 270-282): exactly the declared content size when the frame declares
one, and `MAX((size_t)buffer_size, input_remaining)` — with
`input_remaining` the input bytes left after the header — otherwise. -/
def initAlloc (M : BlockCodec) (pf : Prefs) (cs : Nat) (b : List Nat)
    (buffer_size : Int) : Nat :=
  if 0 < cs then cs
  else max buffer_size.toNat ((frameBytes M pf cs b).length - headerLen cs)

/-! # Theorems -/

/-! ## Generic byte-level lemmas -/

theorem le32_length (n : Nat) : (le32 n).length = 4 := rfl

theorem le64_length (n : Nat) : (le64 n).length = 8 := rfl

theorem readLe32_le32 (n : Nat) (h : n < 2^32) : readLe32 (le32 n) = n := by
  simp only [readLe32, le32, List.getD, List.get?, Option.getD_some]
  omega

theorem readLe64_le64 (n : Nat) (h : n < 2^64) : readLe64 (le64 n) = n := by
  simp only [readLe64, le64, List.getD, List.get?, Option.getD_some]
  omega

theorem readLe32_append (l r : List Nat) (h : 4 ≤ l.length) :
    readLe32 (l ++ r) = readLe32 l := by
  match l, h with
  | a :: b :: c :: d :: t, _ => rfl

theorem readLe64_append (l r : List Nat) (h : 8 ≤ l.length) :
    readLe64 (l ++ r) = readLe64 l := by
  match l, h with
  | a :: b :: c :: d :: e :: f :: g :: i :: t, _ => rfl

/-! ## Claim C5: block size mapping -/

/-- C5: `get_block_size` maps `Max64KB ↦ 65536`, `Max256KB ↦ 262144`,
`Max1MB ↦ 1048576`, `Max4MB ↦ 4194304`, and the `Default` class yields the
same value as `Max64KB`. -/
theorem claim_C5 :
    lz4f_block_size_from_id LZ4F_max64KB = 65536 ∧
    lz4f_block_size_from_id LZ4F_max256KB = 262144 ∧
    lz4f_block_size_from_id LZ4F_max1MB = 1048576 ∧
    lz4f_block_size_from_id LZ4F_max4MB = 4194304 ∧
    lz4f_block_size_from_id LZ4F_default = lz4f_block_size_from_id LZ4F_max64KB := by
  decide

/-! ## Claim C8: non-positive chunk_len handling -/

/-- C8: the claim says every non-positive `chunk_len` fails with
`InvalidOption` before any processing.  The code catches only 0: the
variable is a `size_t` parsed with the `"i"` (C `int`) format, so the
negative argument -1 is stored as 4294967295 and sails past the
`chunk_len <= 0` test — the call proceeds (here: consumes the supplied
byte and returns a hint) instead of failing. -/
theorem claim_C8_code_bug :
    chunkLenStore (-1) = 4294967295 ∧
    lz4framed_decompress_update trivM (.awaitHeader []) [9] (-1) 10 =
      .ok ([], 6, .awaitHeader [9]) ∧
    chunkLenStore 0 = 0 ∧
    lz4framed_decompress_update trivM (.awaitHeader []) [9] 0 10 =
      .error .invalidOption := by
  refine ⟨rfl, ?_, rfl, rfl⟩
  rfl

/-! ## Frame header lemmas -/

theorem flg_div64 (linked : Bool) (cs : Nat) (cchk : Bool) :
    flgByte linked cs cchk / 64 = 1 := by
  unfold flgByte
  by_cases h1 : linked <;> by_cases h2 : 0 < cs <;> by_cases h3 : cchk <;> simp [h1, h2, h3]

theorem flg_div8 (linked : Bool) (cs : Nat) (cchk : Bool) :
    flgByte linked cs cchk / 8 % 2 = if 0 < cs then 1 else 0 := by
  unfold flgByte
  by_cases h1 : linked <;> by_cases h2 : 0 < cs <;> by_cases h3 : cchk <;> simp [h1, h2, h3]

theorem flg_div32 (linked : Bool) (cs : Nat) (cchk : Bool) :
    flgByte linked cs cchk / 32 % 2 = if linked then 0 else 1 := by
  unfold flgByte
  by_cases h1 : linked <;> by_cases h2 : 0 < cs <;> by_cases h3 : cchk <;> simp [h1, h2, h3]

theorem flg_div4 (linked : Bool) (cs : Nat) (cchk : Bool) :
    flgByte linked cs cchk / 4 % 2 = if cchk then 1 else 0 := by
  unfold flgByte
  by_cases h1 : linked <;> by_cases h2 : 0 < cs <;> by_cases h3 : cchk <;> simp [h1, h2, h3]

theorem valid_block_id_cases (bid : Int) (hv : valid_lz4f_block_size_id bid = true) :
    bid = 0 ∨ bid = 4 ∨ bid = 5 ∨ bid = 6 ∨ bid = 7 := by
  simp only [valid_lz4f_block_size_id, LZ4F_default, LZ4F_max64KB, LZ4F_max256KB, LZ4F_max1MB,
    LZ4F_max4MB, Bool.or_eq_true, beq_iff_eq] at hv
  tauto

theorem effBlockId_range (bid : Int) (hv : valid_lz4f_block_size_id bid = true) :
    4 ≤ effBlockId bid ∧ effBlockId bid ≤ 7 := by
  rcases valid_block_id_cases bid hv with h | h | h | h | h <;> subst h <;> decide

theorem block_size_pos (bid : Int) (hv : valid_lz4f_block_size_id bid = true) :
    0 < lz4f_block_size_from_id bid ∧ lz4f_block_size_from_id bid < 2^31 := by
  rcases valid_block_id_cases bid hv with h | h | h | h | h <;> subst h <;> decide

theorem headerDesc_length (bid : Int) (linked cchk : Bool) (cs : Nat) :
    (headerDesc bid linked cchk cs).length = headerLen cs - 5 := by
  by_cases h : 0 < cs <;> simp [headerDesc, headerLen, h, le64]

theorem headerBytes_length (M : BlockCodec) (bid : Int) (linked cchk : Bool) (cs : Nat) :
    (headerBytes M bid linked cchk cs).length = headerLen cs := by
  by_cases h : 0 < cs <;>
    simp [headerBytes, headerDesc, headerLen, lz4Magic, h, le64]

theorem parseHeaderM_headerBytes (M : BlockCodec) (bid : Int) (linked cchk : Bool) (cs : Nat)
    (hv : valid_lz4f_block_size_id bid = true) (hcs : cs < 2^64) (rest : List Nat) :
    parseHeaderM M (headerBytes M bid linked cchk cs ++ rest) =
      .okHdr ⟨cs, effBlockId bid, linked, cchk⟩ (headerLen cs) := by
  have hrange := effBlockId_range bid hv
  have hbd : 16 * effBlockId bid / 16 = effBlockId bid := by omega
  have h64 := flg_div64 linked cs cchk
  have h8b : (flgByte linked cs cchk / 8 % 2 == 1) = decide (0 < cs) := by
    rw [flg_div8]; by_cases h : 0 < cs <;> simp [h]
  have h32b : (flgByte linked cs cchk / 32 % 2 == 0) = linked := by
    rw [flg_div32]; by_cases h : linked <;> simp [h]
  have h4b : (flgByte linked cs cchk / 4 % 2 == 1) = cchk := by
    rw [flg_div4]; by_cases h : cchk <;> simp [h]
  by_cases hcs0 : 0 < cs
  · have hexp : headerBytes M bid linked cchk cs ++ rest =
        4 :: 34 :: 77 :: 24 :: flgByte linked cs cchk :: (16 * effBlockId bid) ::
        (le64 cs ++ (M.hchk (headerDesc bid linked cchk cs) % 256 :: rest)) := by
      simp [headerBytes, headerDesc, lz4Magic, hcs0]
    rw [hexp]
    simp only [le64, List.cons_append, List.nil_append]
    unfold parseHeaderM
    simp only [List.length_cons, List.getD, List.get?, Option.getD_some, List.take_succ_cons,
      List.take_zero, List.drop_succ_cons, List.drop_zero, h64, h8b, h32b, h4b, hcs0,
      decide_True, if_true, ite_true]
    rw [if_neg (by omega), if_neg (by simp [lz4Magic]), if_neg (by omega), if_neg (by omega),
      if_neg (by rw [hbd]; omega)]
    have hdeq : ([flgByte linked cs cchk, 16 * effBlockId bid, cs % 256, cs / 2^8 % 256,
        cs / 2^16 % 256, cs / 2^24 % 256, cs / 2^32 % 256, cs / 2^40 % 256, cs / 2^48 % 256,
        cs / 2^56 % 256] : List Nat) = headerDesc bid linked cchk cs := by
      simp [headerDesc, le64, hcs0]
    rw [hdeq, if_neg (by simp)]
    have hrd : readLe64 [cs % 256, cs / 2^8 % 256, cs / 2^16 % 256, cs / 2^24 % 256,
        cs / 2^32 % 256, cs / 2^40 % 256, cs / 2^48 % 256, cs / 2^56 % 256] = cs := by
      simp only [readLe64, List.getD, List.get?, Option.getD_some]
      omega
    rw [hrd, hbd]
    simp [headerLen, hcs0]
  · have hcsz : cs = 0 := by omega
    subst hcsz
    have hexp : headerBytes M bid linked cchk 0 ++ rest =
        4 :: 34 :: 77 :: 24 :: flgByte linked 0 cchk :: (16 * effBlockId bid) ::
        M.hchk (headerDesc bid linked cchk 0) % 256 :: rest := by
      simp [headerBytes, headerDesc, lz4Magic]
    rw [hexp]
    unfold parseHeaderM
    have h00 : (decide (0 < 0)) = false := by decide
    simp only [List.length_cons, List.getD, List.get?, Option.getD_some, List.take_succ_cons,
      List.take_zero, List.drop_succ_cons, List.drop_zero, h64, h8b, h32b, h4b, h00,
      Bool.false_eq_true, if_false, ite_false]
    rw [if_neg (by omega), if_neg (by simp [lz4Magic]), if_neg (by omega), if_neg (by omega),
      if_neg (by rw [hbd]; omega)]
    have hdeq : ([flgByte linked 0 cchk, 16 * effBlockId bid] : List Nat) =
        headerDesc bid linked cchk 0 := by
      simp [headerDesc]
    rw [hdeq, if_neg (by simp), hbd]
    simp [headerLen]

theorem parseHeaderM_truncated (M : BlockCodec) (bid : Int) (linked cchk : Bool) (cs : Nat)
    (hv : valid_lz4f_block_size_id bid = true) (hcs0 : 0 < cs) (k : Nat) (hk : k < 15) :
    ∃ n, 0 < n ∧
      parseHeaderM M ((headerBytes M bid linked cchk cs).take k) = .incomplete n := by
  have hL : (headerBytes M bid linked cchk cs).length = 15 := by
    rw [headerBytes_length]; simp [headerLen, hcs0]
  have hlentake : ((headerBytes M bid linked cchk cs).take k).length = k := by
    rw [List.length_take, hL]; omega
  by_cases hk7 : k < 7
  · refine ⟨7 - k, by omega, ?_⟩
    unfold parseHeaderM
    rw [hlentake, if_pos hk7]
  · refine ⟨15 - k, by omega, ?_⟩
    have h8b : (flgByte linked cs cchk / 8 % 2 == 1) = true := by
      rw [flg_div8]; simp [hcs0]
    have htk4 : ((headerBytes M bid linked cchk cs).take k).take 4 = lz4Magic := by
      rw [List.take_take]
      have : min 4 k = 4 := by omega
      rw [this]
      simp [headerBytes, lz4Magic, List.take_append]
    have hg4 : ((headerBytes M bid linked cchk cs).take k).getD 4 0 = flgByte linked cs cchk := by
      simp only [List.getD]
      rw [List.get?_take (by omega)]
      simp [headerBytes, headerDesc, lz4Magic, List.get?]
    unfold parseHeaderM
    rw [hlentake, if_neg (by omega), if_neg (by rw [htk4]; simp), hg4]
    rw [if_neg (by rw [flg_div64]; simp)]
    simp only [h8b, if_true, ite_true]
    rw [if_pos (by omega)]

/-! ## Claim C7: truncated header -/

/-- C7: one-shot `decompress` of a non-empty frame truncated in the middle
of its header (the frame produced by one-shot `compress` has a 15-byte
header) fails with the `frameHeader_incomplete` condition — an error code
distinct from the malformed-header codes — and returns no decoded
output (the call is an `Except.error`). -/
theorem claim_C7 (M : BlockCodec) (b : List Nat) (bid : Int) (linked checksum : Bool)
    (level buffer_size : Int) (fuel k : Nat)
    (hb : b ≠ []) (hv : valid_lz4f_block_size_id bid = true) (hbsz : 0 < buffer_size)
    (hk0 : 0 < k) (hk : k < 15) :
    lz4framed_decompress M
        ((frameBytes M ⟨bid, linked, checksum, false, level⟩ b.length b).take k)
        buffer_size fuel = .error (.lz4 .frameHeader_incomplete) ∧
    ErrCode.frameHeader_incomplete ≠ ErrCode.headerChecksum_invalid ∧
    ErrCode.frameHeader_incomplete ≠ ErrCode.frameType_unknown ∧
    ErrCode.frameHeader_incomplete ≠ ErrCode.headerVersion_wrong := by
  have hcs0 : 0 < b.length := List.length_pos.mpr hb
  have hL : (headerBytes M bid linked checksum b.length).length = 15 := by
    rw [headerBytes_length]; simp [headerLen, hcs0]
  have htk : (frameBytes M ⟨bid, linked, checksum, false, level⟩ b.length b).take k =
      (headerBytes M bid linked checksum b.length).take k := by
    unfold frameBytes
    dsimp only
    rw [List.append_assoc, List.take_append_of_le_length (by rw [hL]; omega)]
  rw [htk]
  obtain ⟨n, hn, hpar⟩ := parseHeaderM_truncated M bid linked checksum b.length hv hcs0 k hk
  have hlen : ((headerBytes M bid linked checksum b.length).take k).length = k := by
    rw [List.length_take, hL]; omega
  refine ⟨?_, by decide, by decide, by decide⟩
  unfold lz4framed_decompress
  rw [if_neg (by omega), if_neg (by omega)]
  unfold LZ4F_getFrameInfoM
  simp only [List.nil_append, hpar]

/-- Witness for C7 at a concrete input: the one-shot frame for the byte
string consisting of the single byte 97, truncated to its first 9 bytes. -/
theorem claim_C7_witness :
    lz4framed_decompress trivM
        ((frameBytes trivM ⟨0, true, false, false, 0⟩ ([97] : List Nat).length [97]).take 9)
        1024 50 = .error (.lz4 .frameHeader_incomplete) ∧
    ErrCode.frameHeader_incomplete ≠ ErrCode.headerChecksum_invalid ∧
    ErrCode.frameHeader_incomplete ≠ ErrCode.frameType_unknown ∧
    ErrCode.frameHeader_incomplete ≠ ErrCode.headerVersion_wrong :=
  claim_C7 trivM [97] 0 true false 0 1024 50 9 (by decide) (by decide) (by decide)
    (by decide) (by decide)

/-! ## Claim C9: get_frame_info supplies no input -/

/-- C9: `get_frame_info` always calls the header accessor with a
zero-length source (NULL pointer, `input_read = 0`), so on a context whose
header has been parsed it returns the frame info dictionary (with the
context unchanged), and on a context still awaiting header bytes it fails
with `frameHeader_incomplete` (again with the context unchanged).  The
hypothesis characterizes reachable awaiting-header contexts: their
buffered bytes are insufficient to parse a header (whenever enough bytes
arrive through `decompress_update`, the context advances to the in-frame
stage at once). -/
theorem claim_C9 (M : BlockCodec) (st : DStage)
    (hwf : ∀ buf, st = .awaitHeader buf → ∃ n, parseHeaderM M buf = .incomplete n) :
    (∀ f, st = .inFrame f →
      lz4framed_get_frame_info M st =
        (.ok ⟨4, f.info.contentSize, f.info.blockSizeID, f.info.blockModeLinked,
              f.info.contentChecksum⟩, st)) ∧
    (∀ buf, st = .awaitHeader buf →
      lz4framed_get_frame_info M st = (.error (.lz4 .frameHeader_incomplete), st)) := by
  constructor
  · intro f hf; subst hf; rfl
  · intro buf hb; subst hb
    obtain ⟨n, hn⟩ := hwf buf rfl
    unfold lz4framed_get_frame_info LZ4F_getFrameInfoM
    simp only [List.append_nil, hn]

/-- Witness for C9: a fresh context (no header parsed) errors with
`frameHeader_incomplete`, and a context whose header has been parsed
succeeds; both leave the context unchanged. -/
theorem claim_C9_witness :
    lz4framed_get_frame_info trivM (.awaitHeader []) =
      (.error (.lz4 .frameHeader_incomplete), .awaitHeader []) ∧
    lz4framed_get_frame_info trivM (.inFrame ⟨⟨0, 4, true, false⟩, [], [], []⟩) =
      (.ok ⟨4, 0, 4, true, false⟩, .inFrame ⟨⟨0, 4, true, false⟩, [], [], []⟩) :=
  ⟨(claim_C9 trivM _ (fun buf hb => ⟨7, by cases hb; rfl⟩)).2 [] rfl,
   (claim_C9 trivM _ (fun buf hb => by simp at hb)).1 _ rfl⟩

/-! ## Compression machine lemmas (towards C1) -/

theorem emitBL_zero (M : BlockCodec) (lvl : Int) (linked : Bool) (bs : Nat)
    (hist buf : List Nat) : emitBL M lvl linked bs 0 hist buf = ([], [], hist, buf) := rfl

theorem emitBL_succ (M : BlockCodec) (lvl : Int) (linked : Bool) (bs : Nat)
    (f : Nat) (hist buf : List Nat) :
    emitBL M lvl linked bs (f + 1) hist buf =
      if 0 < bs ∧ bs ≤ buf.length then
        (encodeBlockUnit M lvl linked hist (buf.take bs) ::
           (emitBL M lvl linked bs f (hist ++ buf.take bs) (buf.drop bs)).1,
         buf.take bs :: (emitBL M lvl linked bs f (hist ++ buf.take bs) (buf.drop bs)).2.1,
         (emitBL M lvl linked bs f (hist ++ buf.take bs) (buf.drop bs)).2.2)
      else ([], [], hist, buf) := by
  show (if 0 < bs ∧ bs ≤ buf.length then _ else _) = _
  by_cases hc : 0 < bs ∧ bs ≤ buf.length
  · rw [if_pos hc]
  · rw [if_neg hc]

theorem emitBL_fuel (M : BlockCodec) (lvl : Int) (linked : Bool) (bs : Nat) :
    ∀ f hist buf, buf.length ≤ f →
      emitBL M lvl linked bs f hist buf = emitBL M lvl linked bs buf.length hist buf := by
  intro f
  induction f using Nat.strong_induction_on with
  | _ f ih =>
    intro hist buf hle
    match f with
    | 0 =>
      have : buf = [] := List.length_eq_zero.mp (by omega)
      subst this
      rfl
    | g + 1 =>
      rw [emitBL_succ]
      by_cases hc : 0 < bs ∧ bs ≤ buf.length
      · rw [if_pos hc]
        have hlb : buf.length = (buf.length - 1) + 1 := by omega
        conv_rhs => rw [hlb, emitBL_succ, if_pos hc]
        have hd : (buf.drop bs).length = buf.length - bs := by simp
        have h1 : emitBL M lvl linked bs g (hist ++ buf.take bs) (buf.drop bs) =
            emitBL M lvl linked bs (buf.drop bs).length (hist ++ buf.take bs) (buf.drop bs) :=
          ih g (by omega) _ _ (by omega)
        have h2 : emitBL M lvl linked bs (buf.length - 1) (hist ++ buf.take bs) (buf.drop bs) =
            emitBL M lvl linked bs (buf.drop bs).length (hist ++ buf.take bs) (buf.drop bs) :=
          ih (buf.length - 1) (by omega) _ _ (by omega)
        rw [h1, h2]
      · rw [if_neg hc]
        cases hlb : buf.length with
        | zero => rfl
        | succ n =>
          rw [emitBL_succ, if_neg hc]

theorem enc_unitIsFor (M : BlockCodec) (lvl : Int) (linked : Bool) (hist blk : List Nat)
    (h0 : blk ≠ []) (h31 : blk.length < 2^31) :
    unitIsFor M linked hist blk (encodeBlockUnit M lvl linked hist blk) := by
  have hbl : 0 < blk.length := List.length_pos.mpr h0
  unfold encodeBlockUnit unitIsFor
  by_cases hc : 0 < (M.comp lvl (if linked then hist else []) blk).length ∧
      (M.comp lvl (if linked then hist else []) blk).length < blk.length
  · rw [if_pos hc]
    have ht4 : ((le32 (M.comp lvl (if linked then hist else []) blk).length ++
        M.comp lvl (if linked then hist else []) blk).take 4) =
        le32 (M.comp lvl (if linked then hist else []) blk).length := by
      rw [List.take_append_of_le_length (by rw [le32_length])]
      simp [le32]
    have hrd : readLe32 ((le32 (M.comp lvl (if linked then hist else []) blk).length ++
        M.comp lvl (if linked then hist else []) blk).take 4) =
        (M.comp lvl (if linked then hist else []) blk).length := by
      rw [ht4, readLe32_le32 _ (by omega)]
    rw [hrd]
    have hdr : (le32 (M.comp lvl (if linked then hist else []) blk).length ++
        M.comp lvl (if linked then hist else []) blk).drop 4 =
        M.comp lvl (if linked then hist else []) blk := by
      rw [show (4 : Nat) = (le32 (M.comp lvl (if linked then hist else []) blk).length).length
        from (le32_length _).symm, List.drop_left]
    refine ⟨by simp [le32]; omega, by omega, ?_, ?_, h0⟩
    · simp [le32]; omega
    · rw [if_neg (by omega), hdr, M.comp_decomp]
  · rw [if_neg hc]
    have ht4 : ((le32 (2^31 + blk.length) ++ blk).take 4) = le32 (2^31 + blk.length) := by
      rw [List.take_append_of_le_length (by rw [le32_length])]
      simp [le32]
    have hrd : readLe32 ((le32 (2^31 + blk.length) ++ blk).take 4) = 2^31 + blk.length := by
      rw [ht4, readLe32_le32 _ (by omega)]
    rw [hrd]
    have hdr : (le32 (2^31 + blk.length) ++ blk).drop 4 = blk := by
      rw [show (4 : Nat) = (le32 (2^31 + blk.length)).length from (le32_length _).symm,
        List.drop_left]
    refine ⟨by simp [le32]; omega, by omega, by simp [le32]; omega, ?_, h0⟩
    rw [if_pos (by omega), hdr]

theorem emitBL_decomp (M : BlockCodec) (lvl : Int) (linked : Bool) (bs : Nat) :
    ∀ f hist buf, buf.length ≤ f →
      (emitBL M lvl linked bs f hist buf).2.1.flatten ++ (emitBL M lvl linked bs f hist buf).2.2.2
          = buf ∧
      (emitBL M lvl linked bs f hist buf).2.2.1 =
          hist ++ (emitBL M lvl linked bs f hist buf).2.1.flatten ∧
      (0 < bs → (emitBL M lvl linked bs f hist buf).2.2.2.length < bs) := by
  intro f
  induction f with
  | zero =>
    intro hist buf hle
    have : buf = [] := List.length_eq_zero.mp (by omega)
    subst this
    exact ⟨rfl, by simp [emitBL_zero], fun hbs => by simp [emitBL_zero]; omega⟩
  | succ g ih =>
    intro hist buf hle
    rw [emitBL_succ]
    by_cases hc : 0 < bs ∧ bs ≤ buf.length
    · rw [if_pos hc]
      obtain ⟨ih1, ih2, ih3⟩ := ih (hist ++ buf.take bs) (buf.drop bs) (by simp; omega)
      refine ⟨?_, ?_, fun _ => ih3 hc.1⟩
      · simp only [List.flatten_cons, List.append_assoc, ih1]
        exact List.take_append_drop bs buf
      · simp only [List.flatten_cons, ih2, List.append_assoc]
    · rw [if_neg hc]
      refine ⟨rfl, by simp, fun hbs => by simp; omega⟩

theorem emitBL_unitsFor (M : BlockCodec) (lvl : Int) (linked : Bool) (bs : Nat)
    (h31 : bs < 2^31) :
    ∀ f hist buf, buf.length ≤ f →
      unitsFor M linked hist (emitBL M lvl linked bs f hist buf).1
        (emitBL M lvl linked bs f hist buf).2.1 := by
  intro f
  induction f with
  | zero =>
    intro hist buf hle
    rw [emitBL_zero]
    trivial
  | succ g ih =>
    intro hist buf hle
    rw [emitBL_succ]
    by_cases hc : 0 < bs ∧ bs ≤ buf.length
    · rw [if_pos hc]
      obtain ⟨hb1, hb2⟩ := hc
      have hlen : (buf.take bs).length = bs := by
        rw [List.length_take, Nat.min_eq_left hb2]
      refine ⟨?_, ?_⟩
      · exact enc_unitIsFor M lvl linked hist (buf.take bs)
          (List.length_pos.mp (by rw [hlen]; omega))
          (by rw [hlen]; omega)
      · exact ih (hist ++ buf.take bs) (buf.drop bs) (by rw [List.length_drop]; omega)
    · rw [if_neg hc]
      trivial

theorem unitsFor_append (M : BlockCodec) (linked : Bool) :
    ∀ us1 ds1 us2 ds2 hist, unitsFor M linked hist us1 ds1 →
      unitsFor M linked (hist ++ ds1.flatten) us2 ds2 →
      unitsFor M linked hist (us1 ++ us2) (ds1 ++ ds2) := by
  intro us1
  induction us1 with
  | nil =>
    intro ds1 us2 ds2 hist h1 h2
    cases ds1 with
    | nil => simpa using h2
    | cons d t => exact absurd h1 (by simp [unitsFor])
  | cons u t ih =>
    intro ds1 us2 ds2 hist h1 h2
    cases ds1 with
    | nil => exact absurd h1 (by simp [unitsFor])
    | cons d dt =>
      obtain ⟨hu, ht⟩ := h1
      refine ⟨hu, ih dt us2 ds2 (hist ++ d) ht ?_⟩
      simp only [List.flatten_cons] at h2
      rw [← List.append_assoc] at h2
      exact h2

theorem emitBL_stuck (M : BlockCodec) (lvl : Int) (linked : Bool) (bs : Nat)
    (hist buf : List Nat) (hc : ¬(0 < bs ∧ bs ≤ buf.length)) :
    ∀ f, emitBL M lvl linked bs f hist buf = ([], [], hist, buf) := by
  intro f
  cases f with
  | zero => rfl
  | succ g => rw [emitBL_succ, if_neg hc]

theorem emitBL_append (M : BlockCodec) (lvl : Int) (linked : Bool) (bs : Nat) :
    ∀ f buf d hist, buf.length + d.length ≤ f →
      emitBL M lvl linked bs f hist (buf ++ d) =
        ((emitBL M lvl linked bs buf.length hist buf).1 ++
           (emitBL M lvl linked bs
             ((emitBL M lvl linked bs buf.length hist buf).2.2.2 ++ d).length
             (emitBL M lvl linked bs buf.length hist buf).2.2.1
             ((emitBL M lvl linked bs buf.length hist buf).2.2.2 ++ d)).1,
         (emitBL M lvl linked bs buf.length hist buf).2.1 ++
           (emitBL M lvl linked bs
             ((emitBL M lvl linked bs buf.length hist buf).2.2.2 ++ d).length
             (emitBL M lvl linked bs buf.length hist buf).2.2.1
             ((emitBL M lvl linked bs buf.length hist buf).2.2.2 ++ d)).2.1,
         (emitBL M lvl linked bs
             ((emitBL M lvl linked bs buf.length hist buf).2.2.2 ++ d).length
             (emitBL M lvl linked bs buf.length hist buf).2.2.1
             ((emitBL M lvl linked bs buf.length hist buf).2.2.2 ++ d)).2.2) := by
  intro f
  induction f using Nat.strong_induction_on with
  | _ f ih =>
    intro buf d hist hle
    by_cases hc : 0 < bs ∧ bs ≤ buf.length
    · have hf : f = (f - 1) + 1 := by omega
      rw [hf, emitBL_succ, if_pos ⟨hc.1, by simp; omega⟩]
      have htk : (buf ++ d).take bs = buf.take bs :=
        List.take_append_of_le_length hc.2
      have hdr : (buf ++ d).drop bs = buf.drop bs ++ d := by
        rw [List.drop_append_of_le_length hc.2]
      rw [htk, hdr]
      have hrec := ih (f - 1) (by omega) (buf.drop bs) d (hist ++ buf.take bs)
        (by simp; omega)
      rw [hrec]
      have hbl : buf.length = (buf.length - 1) + 1 := by omega
      conv_rhs => rw [hbl, emitBL_succ, if_pos hc]
      have hfl : emitBL M lvl linked bs (buf.length - 1) (hist ++ buf.take bs) (buf.drop bs) =
          emitBL M lvl linked bs (buf.drop bs).length (hist ++ buf.take bs) (buf.drop bs) :=
        emitBL_fuel M lvl linked bs _ _ _ (by simp; omega)
      rw [hfl]
      rfl
    · rw [emitBL_stuck M lvl linked bs hist buf hc]
      have h1 : emitBL M lvl linked bs f hist (buf ++ d) =
          emitBL M lvl linked bs (buf ++ d).length hist (buf ++ d) :=
        emitBL_fuel M lvl linked bs f hist (buf ++ d) (by simp; omega)
      rw [h1]
      rfl

theorem runUpdates_run (M : BlockCodec) (pf : Prefs) (haf : pf.autoFlush = false)
    (hbs : 0 < lz4f_block_size_from_id pf.blockSizeID) :
    ∀ chunks hist pend, (∀ c ∈ chunks, c ≠ []) →
      pend.length < lz4f_block_size_from_id pf.blockSizeID →
      runUpdates M ⟨pf, hist, pend⟩ chunks =
        .ok ((emitBL M pf.level pf.blockModeLinked (lz4f_block_size_from_id pf.blockSizeID)
                (pend ++ chunks.flatten).length hist (pend ++ chunks.flatten)).1.flatten,
             ⟨pf, (emitBL M pf.level pf.blockModeLinked (lz4f_block_size_from_id pf.blockSizeID)
                (pend ++ chunks.flatten).length hist (pend ++ chunks.flatten)).2.2.1,
             (emitBL M pf.level pf.blockModeLinked (lz4f_block_size_from_id pf.blockSizeID)
                (pend ++ chunks.flatten).length hist (pend ++ chunks.flatten)).2.2.2⟩) := by
  intro chunks
  induction chunks with
  | nil =>
    intro hist pend hne hp
    rw [emitBL_stuck M _ _ _ _ _ (by simp; omega) _]
    simp [runUpdates]
  | cons c rest ih =>
    intro hist pend hne hp
    have hcne : c ≠ [] := hne c (by simp)
    unfold runUpdates lz4framed_compress_update
    rw [if_neg (by simp; exact hcne), if_neg (by simp [haf])]
    have hrp := emitBL_decomp M pf.level pf.blockModeLinked
      (lz4f_block_size_from_id pf.blockSizeID) (pend ++ c).length hist (pend ++ c) (le_refl _)
    dsimp only
    rw [ih _ _ (fun x hx => hne x (by simp [hx]))
      (hrp.2.2 hbs)]
    have happ := emitBL_append M pf.level pf.blockModeLinked
      (lz4f_block_size_from_id pf.blockSizeID) (pend ++ (c :: rest).flatten).length
      (pend ++ c) rest.flatten hist (by simp; omega)
    rw [List.flatten_cons, ← List.append_assoc] at *
    rw [happ]
    simp

/-! ## Claim C1: incremental vs one-shot compression -/

/-- C1 (amended): for every split of a non-empty input into non-empty
chunks and every valid preference combination, the concatenation of the
outputs of `compress_begin`, the `compress_update` calls and
`compress_end` equals the frame that one-shot compression would emit *if
it did not declare the content length* (`frameBytes` with content size 0);
the actual one-shot `compress` output differs precisely in the header,
because `_lz4framed_compress` sets `contentSize = input_len` while
`compress_begin` leaves it undeclared. -/
theorem claim_C1_amended (M : BlockCodec) (bid : Int) (linked checksum : Bool) (level : Int)
    (chunks : List (List Nat))
    (hv : valid_lz4f_block_size_id bid = true) (hl0 : 0 ≤ level) (hl16 : level ≤ 16)
    (hne : ∀ c ∈ chunks, c ≠ []) :
    runIncremental M bid linked checksum level chunks =
      .ok (frameBytes M ⟨bid, linked, checksum, false, level⟩ 0 chunks.flatten) := by
  obtain ⟨hbs, hbs31⟩ := block_size_pos bid hv
  unfold runIncremental lz4framed_compress_begin
  rw [if_neg (by simp [hv]), if_neg (by omega)]
  dsimp only
  rw [runUpdates_run M ⟨bid, linked, checksum, false, level⟩ rfl hbs chunks [] [] hne hbs]
  dsimp only
  unfold lz4framed_compress_end
  dsimp only
  have hrd := emitBL_decomp M level linked (lz4f_block_size_from_id bid)
    ([] ++ chunks.flatten).length [] ([] ++ chunks.flatten) (le_refl _)
  unfold frameBytes contentParts
  dsimp only
  rw [List.nil_append] at *
  have hfl : ∀ p h, ((if p = ([] : List Nat) then ([] : List (List Nat))
      else [encodeBlockUnit M level linked h p]).flatten) =
      (if p = ([] : List Nat) then ([] : List Nat) else encodeBlockUnit M level linked h p) := by
    intro p h
    by_cases hp : p = [] <;> simp [hp]
  rw [List.flatten_append, hfl]
  rw [hrd.2.1, List.nil_append]
  have hcontent : (emitBL M level linked (lz4f_block_size_from_id bid) chunks.flatten.length []
      chunks.flatten).2.1.flatten ++ (emitBL M level linked (lz4f_block_size_from_id bid)
      chunks.flatten.length [] chunks.flatten).2.2.2 = chunks.flatten := hrd.1
  rw [hcontent]
  simp [List.append_assoc]

/-- C1 counterexample: as stated the claim is false.  For the single-byte
input 97 fed as one chunk, both pipelines succeed but produce different
bytes: the one-shot frame's header declares content length 1 (15-byte
header), the incremental frame's header does not (7-byte header). -/
theorem claim_C1_counterexample :
    ∃ l1 l2 : List Nat,
      runIncremental trivM 0 true false 0 [[97]] = .ok l1 ∧
      lz4framed_compress trivM [97] 0 true false 0 = .ok l2 ∧
      l1 ≠ l2 :=
  ⟨_, _, rfl, rfl, by decide⟩

/-- Witness for the amended C1 at a concrete input: the two-chunk split
of the bytes 97, 98. -/
theorem claim_C1_witness :
    runIncremental trivM 0 true false 0 [[97], [98]] =
      .ok (frameBytes trivM ⟨0, true, false, false, 0⟩ 0
        ([[97], [98]] : List (List Nat)).flatten) :=
  claim_C1_amended trivM 0 true false 0 [[97], [98]] (by decide) (by decide) (by decide)
    (by decide)

/-! ## Decoder step lemmas -/

theorem goD_succ_await (M : BlockCodec) (fuel : Nat) (buf : List Nat) (cap : Nat)
    (src : List Nat) :
    goD M (fuel + 1) (.awaitHeader buf) cap src =
      match parseHeaderM M (buf ++ src) with
      | .incomplete need => .ok (.awaitHeader (buf ++ src), [], src.length, need)
      | .errc c => .error c
      | .okHdr info hlen =>
        match goD M fuel (.inFrame ⟨info, [], [], buf.drop hlen⟩) cap
                (src.drop (hlen - buf.length)) with
        | .error e => .error e
        | .ok (st', w, r, h) => .ok (st', w, (hlen - buf.length) + r, h) := rfl

theorem goD_succ_inFrame (M : BlockCodec) (fuel : Nat) (f : DFrame) (cap : Nat)
    (src : List Nat) :
    goD M (fuel + 1) (.inFrame f) cap src =
      if cap < f.pending.length then
        .ok (.inFrame ⟨f.info, f.decoded, f.pending.drop cap, f.inBuf⟩, f.pending.take cap, 0, 4)
      else
        if (f.inBuf ++ src).length < 4 then
          .ok (.inFrame ⟨f.info, f.decoded, [], f.inBuf ++ src⟩, f.pending, src.length,
               4 - (f.inBuf ++ src).length)
        else
          if readLe32 ((f.inBuf ++ src).take 4) = 0 then
            if f.info.contentChecksum then
              if (f.inBuf ++ src).length < 8 then
                .ok (.inFrame ⟨f.info, f.decoded, [], f.inBuf ++ src⟩, f.pending, src.length,
                     8 - (f.inBuf ++ src).length)
              else if readLe32 (((f.inBuf ++ src).drop 4).take 4) ≠ M.cchk f.decoded % 2^32 then
                .error .contentChecksum_invalid
              else .ok (.awaitHeader [], f.pending, 8 - f.inBuf.length, 0)
            else .ok (.awaitHeader [], f.pending, 4 - f.inBuf.length, 0)
          else
            if readLe32 ((f.inBuf ++ src).take 4) % 2^31 = 0 then .error .decompressionFailed
            else
              if (f.inBuf ++ src).length < 4 + readLe32 ((f.inBuf ++ src).take 4) % 2^31 then
                .ok (.inFrame ⟨f.info, f.decoded, [], f.inBuf ++ src⟩, f.pending, src.length,
                     4 + readLe32 ((f.inBuf ++ src).take 4) % 2^31 - (f.inBuf ++ src).length)
              else
                match goD M fuel (.inFrame ⟨f.info,
                        f.decoded ++ (if 2^31 ≤ readLe32 ((f.inBuf ++ src).take 4) then
                            ((f.inBuf ++ src).drop 4).take (readLe32 ((f.inBuf ++ src).take 4) % 2^31)
                          else M.decomp (if f.info.blockModeLinked then f.decoded else [])
                            (((f.inBuf ++ src).drop 4).take (readLe32 ((f.inBuf ++ src).take 4) % 2^31))),
                        (if 2^31 ≤ readLe32 ((f.inBuf ++ src).take 4) then
                            ((f.inBuf ++ src).drop 4).take (readLe32 ((f.inBuf ++ src).take 4) % 2^31)
                          else M.decomp (if f.info.blockModeLinked then f.decoded else [])
                            (((f.inBuf ++ src).drop 4).take (readLe32 ((f.inBuf ++ src).take 4) % 2^31))),
                        f.inBuf.drop (4 + readLe32 ((f.inBuf ++ src).take 4) % 2^31)⟩)
                      (cap - f.pending.length)
                      (src.drop ((4 + readLe32 ((f.inBuf ++ src).take 4) % 2^31) - f.inBuf.length)) with
                | .error e => .error e
                | .ok (st', w, r, h) =>
                  .ok (st', f.pending ++ w,
                       ((4 + readLe32 ((f.inBuf ++ src).take 4) % 2^31) - f.inBuf.length) + r, h) := rfl

theorem parseHeaderM_okHdr_le (M : BlockCodec) (l : List Nat) (info : FrameInfo) (hlen : Nat)
    (h : parseHeaderM M l = .okHdr info hlen) : hlen ≤ l.length ∧ 0 < hlen := by
  unfold parseHeaderM at h
  by_cases h7 : l.length < 7
  · rw [if_pos h7] at h; exact absurd h (by simp)
  · rw [if_neg h7] at h
    by_cases hm : l.take 4 ≠ lz4Magic
    · rw [if_pos hm] at h; exact absurd h (by simp)
    · rw [if_neg hm] at h
      by_cases hv : l.getD 4 0 / 64 ≠ 1
      · rw [if_pos hv] at h; exact absurd h (by simp)
      · rw [if_neg hv] at h
        by_cases hl : l.length < if l.getD 4 0 / 8 % 2 == 1 then 15 else 7
        · rw [if_pos hl] at h; exact absurd h (by simp)
        · rw [if_neg hl] at h
          by_cases hbd : l.getD 5 0 / 16 < 4 ∨ 7 < l.getD 5 0 / 16
          · rw [if_pos hbd] at h; exact absurd h (by simp)
          · rw [if_neg hbd] at h
            by_cases hck : l.getD ((if l.getD 4 0 / 8 % 2 == 1 then 15 else 7) - 1) 0 ≠
                M.hchk ((l.drop 4).take ((if l.getD 4 0 / 8 % 2 == 1 then 15 else 7) - 5)) % 256
            · rw [if_pos hck] at h; exact absurd h (by simp)
            · rw [if_neg hck] at h
              have : hlen = if l.getD 4 0 / 8 % 2 == 1 then 15 else 7 := by
                cases h; rfl
              subst this
              constructor
              · omega
              · by_cases hb : (l.getD 4 0 / 8 % 2 == 1) = true
                · rw [if_pos hb]; omega
                · rw [if_neg hb]; omega

theorem goD_w_r_le (M : BlockCodec) :
    ∀ fuel st cap src st' w r h, goD M fuel st cap src = .ok (st', w, r, h) →
      w.length ≤ cap ∧ r ≤ src.length := by
  intro fuel
  induction fuel with
  | zero => intro st cap src st' w r h hgo; exact absurd hgo (by simp [goD])
  | succ g ih =>
    intro st cap src st' w r h hgo
    cases st with
    | awaitHeader buf =>
      rw [goD_succ_await] at hgo
      cases hp : parseHeaderM M (buf ++ src) with
      | incomplete need =>
        rw [hp] at hgo
        simp only [Except.ok.injEq, Prod.mk.injEq] at hgo
        obtain ⟨-, hw, hr, -⟩ := hgo
        subst hw; subst hr
        exact ⟨by simp, le_refl _⟩
      | errc c => rw [hp] at hgo; exact absurd hgo (by simp)
      | okHdr info hlen =>
        rw [hp] at hgo
        dsimp only at hgo
        obtain ⟨hle, hpos⟩ := parseHeaderM_okHdr_le M (buf ++ src) info hlen hp
        cases hrec : goD M g (.inFrame ⟨info, [], [], buf.drop hlen⟩) cap
            (src.drop (hlen - buf.length)) with
        | error e => rw [hrec] at hgo; exact absurd hgo (by simp)
        | ok res =>
          obtain ⟨st2, w2, r2, h2⟩ := res
          rw [hrec] at hgo
          simp only [Except.ok.injEq, Prod.mk.injEq] at hgo
          obtain ⟨-, hw, hr, -⟩ := hgo
          subst hw; subst hr
          obtain ⟨hwle, hrle⟩ := ih _ _ _ _ _ _ _ hrec
          rw [List.length_drop] at hrle
          rw [List.length_append] at hle
          exact ⟨hwle, by omega⟩
    | inFrame f =>
      rw [goD_succ_inFrame] at hgo
      by_cases h1 : cap < f.pending.length
      · rw [if_pos h1] at hgo
        simp only [Except.ok.injEq, Prod.mk.injEq] at hgo
        obtain ⟨-, hw, hr, -⟩ := hgo
        subst hw; subst hr
        exact ⟨by simp, by omega⟩
      · rw [if_neg h1] at hgo
        by_cases h2 : (f.inBuf ++ src).length < 4
        · rw [if_pos h2] at hgo
          simp only [Except.ok.injEq, Prod.mk.injEq] at hgo
          obtain ⟨-, hw, hr, -⟩ := hgo
          subst hw; subst hr
          exact ⟨by omega, le_refl _⟩
        · rw [if_neg h2] at hgo
          by_cases h3 : readLe32 ((f.inBuf ++ src).take 4) = 0
          · rw [if_pos h3] at hgo
            by_cases h4 : f.info.contentChecksum
            · rw [if_pos h4] at hgo
              by_cases h5 : (f.inBuf ++ src).length < 8
              · rw [if_pos h5] at hgo
                simp only [Except.ok.injEq, Prod.mk.injEq] at hgo
                obtain ⟨-, hw, hr, -⟩ := hgo
                subst hw; subst hr
                exact ⟨by omega, le_refl _⟩
              · rw [if_neg h5] at hgo
                by_cases h6 : readLe32 (((f.inBuf ++ src).drop 4).take 4) ≠
                    M.cchk f.decoded % 2^32
                · rw [if_pos h6] at hgo; exact absurd hgo (by simp)
                · rw [if_neg h6] at hgo
                  simp only [Except.ok.injEq, Prod.mk.injEq] at hgo
                  obtain ⟨-, hw, hr, -⟩ := hgo
                  subst hw; subst hr
                  rw [List.length_append] at h5
                  exact ⟨by omega, by omega⟩
            · rw [if_neg h4] at hgo
              simp only [Except.ok.injEq, Prod.mk.injEq] at hgo
              obtain ⟨-, hw, hr, -⟩ := hgo
              subst hw; subst hr
              rw [List.length_append] at h2
              exact ⟨by omega, by omega⟩
          · rw [if_neg h3] at hgo
            by_cases h7 : readLe32 ((f.inBuf ++ src).take 4) % 2^31 = 0
            · rw [if_pos h7] at hgo; exact absurd hgo (by simp)
            · rw [if_neg h7] at hgo
              by_cases h8 : (f.inBuf ++ src).length < 4 +
                  readLe32 ((f.inBuf ++ src).take 4) % 2^31
              · rw [if_pos h8] at hgo
                simp only [Except.ok.injEq, Prod.mk.injEq] at hgo
                obtain ⟨-, hw, hr, -⟩ := hgo
                subst hw; subst hr
                exact ⟨by omega, le_refl _⟩
              · rw [if_neg h8] at hgo
                cases hrec : goD M g (.inFrame ⟨f.info,
                    f.decoded ++ (if 2^31 ≤ readLe32 ((f.inBuf ++ src).take 4) then
                        ((f.inBuf ++ src).drop 4).take (readLe32 ((f.inBuf ++ src).take 4) % 2^31)
                      else M.decomp (if f.info.blockModeLinked then f.decoded else [])
                        (((f.inBuf ++ src).drop 4).take (readLe32 ((f.inBuf ++ src).take 4) % 2^31))),
                    (if 2^31 ≤ readLe32 ((f.inBuf ++ src).take 4) then
                        ((f.inBuf ++ src).drop 4).take (readLe32 ((f.inBuf ++ src).take 4) % 2^31)
                      else M.decomp (if f.info.blockModeLinked then f.decoded else [])
                        (((f.inBuf ++ src).drop 4).take (readLe32 ((f.inBuf ++ src).take 4) % 2^31))),
                    f.inBuf.drop (4 + readLe32 ((f.inBuf ++ src).take 4) % 2^31)⟩)
                    (cap - f.pending.length)
                    (src.drop ((4 + readLe32 ((f.inBuf ++ src).take 4) % 2^31) - f.inBuf.length)) with
                | error e => rw [hrec] at hgo; exact absurd hgo (by simp)
                | ok res =>
                  obtain ⟨st2, w2, r2, h2x⟩ := res
                  rw [hrec] at hgo
                  simp only [Except.ok.injEq, Prod.mk.injEq] at hgo
                  obtain ⟨-, hw, hr, -⟩ := hgo
                  subst hw; subst hr
                  obtain ⟨hwle, hrle⟩ := ih _ _ _ _ _ _ _ hrec
                  rw [List.length_drop] at hrle
                  rw [List.length_append] at h8
                  simp only [List.length_append]
                  omega

theorem parseHeaderM_incomplete_pos (M : BlockCodec) (l : List Nat) (n : Nat)
    (h : parseHeaderM M l = .incomplete n) : 0 < n := by
  unfold parseHeaderM at h
  by_cases h7 : l.length < 7
  · rw [if_pos h7] at h
    cases h
    omega
  · rw [if_neg h7] at h
    by_cases hm : l.take 4 ≠ lz4Magic
    · rw [if_pos hm] at h; exact absurd h (by simp)
    · rw [if_neg hm] at h
      by_cases hv : l.getD 4 0 / 64 ≠ 1
      · rw [if_pos hv] at h; exact absurd h (by simp)
      · rw [if_neg hv] at h
        by_cases hl : l.length < if l.getD 4 0 / 8 % 2 == 1 then 15 else 7
        · rw [if_pos hl] at h
          cases h
          omega
        · rw [if_neg hl] at h
          by_cases hbd : l.getD 5 0 / 16 < 4 ∨ 7 < l.getD 5 0 / 16
          · rw [if_pos hbd] at h; exact absurd h (by simp)
          · rw [if_neg hbd] at h
            by_cases hck : l.getD ((if l.getD 4 0 / 8 % 2 == 1 then 15 else 7) - 1) 0 ≠
                M.hchk ((l.drop 4).take ((if l.getD 4 0 / 8 % 2 == 1 then 15 else 7) - 5)) % 256
            · rw [if_pos hck] at h; exact absurd h (by simp)
            · rw [if_neg hck] at h; exact absurd h (by simp)

theorem goD_hint_iff (M : BlockCodec) :
    ∀ fuel st cap src st' w r h, goD M fuel st cap src = .ok (st', w, r, h) →
      (st = .awaitHeader [] → src ≠ []) →
      (h = 0 ↔ st' = .awaitHeader []) := by
  intro fuel
  induction fuel with
  | zero => intro st cap src st' w r h hgo _; exact absurd hgo (by simp [goD])
  | succ g ih =>
    intro st cap src st' w r h hgo hne
    cases st with
    | awaitHeader buf =>
      rw [goD_succ_await] at hgo
      cases hp : parseHeaderM M (buf ++ src) with
      | incomplete need =>
        rw [hp] at hgo
        simp only [Except.ok.injEq, Prod.mk.injEq] at hgo
        obtain ⟨hst, -, -, hh⟩ := hgo
        subst hst; subst hh
        have hpos := parseHeaderM_incomplete_pos M (buf ++ src) need hp
        constructor
        · intro h0; omega
        · intro hst'
          have hbs : buf ++ src = [] := by
            simpa using hst'
          have hb : buf = [] := by
            cases buf with
            | nil => rfl
            | cons a t => simp at hbs
          have hs : src = [] := by
            cases src with
            | nil => rfl
            | cons a t => rw [hb] at hbs; simp at hbs
          exact absurd hs (hne (by rw [hb]))
      | errc c => rw [hp] at hgo; exact absurd hgo (by simp)
      | okHdr info hlen =>
        rw [hp] at hgo
        dsimp only at hgo
        cases hrec : goD M g (.inFrame ⟨info, [], [], buf.drop hlen⟩) cap
            (src.drop (hlen - buf.length)) with
        | error e => rw [hrec] at hgo; exact absurd hgo (by simp)
        | ok res =>
          obtain ⟨st2, w2, r2, h2⟩ := res
          rw [hrec] at hgo
          simp only [Except.ok.injEq, Prod.mk.injEq] at hgo
          obtain ⟨hst, -, -, hh⟩ := hgo
          subst hst; subst hh
          exact ih _ _ _ _ _ _ _ hrec (by intro hcontra; simp at hcontra)
    | inFrame f =>
      rw [goD_succ_inFrame] at hgo
      by_cases h1 : cap < f.pending.length
      · rw [if_pos h1] at hgo
        simp only [Except.ok.injEq, Prod.mk.injEq] at hgo
        obtain ⟨hst, -, -, hh⟩ := hgo
        subst hst; subst hh
        constructor
        · intro h0; omega
        · intro hst'; simp at hst'
      · rw [if_neg h1] at hgo
        by_cases h2 : (f.inBuf ++ src).length < 4
        · rw [if_pos h2] at hgo
          simp only [Except.ok.injEq, Prod.mk.injEq] at hgo
          obtain ⟨hst, -, -, hh⟩ := hgo
          subst hst; subst hh
          constructor
          · intro h0; omega
          · intro hst'; simp at hst'
        · rw [if_neg h2] at hgo
          by_cases h3 : readLe32 ((f.inBuf ++ src).take 4) = 0
          · rw [if_pos h3] at hgo
            by_cases h4 : f.info.contentChecksum
            · rw [if_pos h4] at hgo
              by_cases h5 : (f.inBuf ++ src).length < 8
              · rw [if_pos h5] at hgo
                simp only [Except.ok.injEq, Prod.mk.injEq] at hgo
                obtain ⟨hst, -, -, hh⟩ := hgo
                subst hst; subst hh
                constructor
                · intro h0; omega
                · intro hst'; simp at hst'
              · rw [if_neg h5] at hgo
                by_cases h6 : readLe32 (((f.inBuf ++ src).drop 4).take 4) ≠
                    M.cchk f.decoded % 2^32
                · rw [if_pos h6] at hgo; exact absurd hgo (by simp)
                · rw [if_neg h6] at hgo
                  simp only [Except.ok.injEq, Prod.mk.injEq] at hgo
                  obtain ⟨hst, -, -, hh⟩ := hgo
                  subst hst; subst hh
                  simp
            · rw [if_neg h4] at hgo
              simp only [Except.ok.injEq, Prod.mk.injEq] at hgo
              obtain ⟨hst, -, -, hh⟩ := hgo
              subst hst; subst hh
              simp
          · rw [if_neg h3] at hgo
            by_cases h7 : readLe32 ((f.inBuf ++ src).take 4) % 2^31 = 0
            · rw [if_pos h7] at hgo; exact absurd hgo (by simp)
            · rw [if_neg h7] at hgo
              by_cases h8 : (f.inBuf ++ src).length < 4 +
                  readLe32 ((f.inBuf ++ src).take 4) % 2^31
              · rw [if_pos h8] at hgo
                simp only [Except.ok.injEq, Prod.mk.injEq] at hgo
                obtain ⟨hst, -, -, hh⟩ := hgo
                subst hst; subst hh
                constructor
                · intro h0; omega
                · intro hst'; simp at hst'
              · rw [if_neg h8] at hgo
                cases hrec : goD M g (.inFrame ⟨f.info,
                    f.decoded ++ (if 2^31 ≤ readLe32 ((f.inBuf ++ src).take 4) then
                        ((f.inBuf ++ src).drop 4).take (readLe32 ((f.inBuf ++ src).take 4) % 2^31)
                      else M.decomp (if f.info.blockModeLinked then f.decoded else [])
                        (((f.inBuf ++ src).drop 4).take (readLe32 ((f.inBuf ++ src).take 4) % 2^31))),
                    (if 2^31 ≤ readLe32 ((f.inBuf ++ src).take 4) then
                        ((f.inBuf ++ src).drop 4).take (readLe32 ((f.inBuf ++ src).take 4) % 2^31)
                      else M.decomp (if f.info.blockModeLinked then f.decoded else [])
                        (((f.inBuf ++ src).drop 4).take (readLe32 ((f.inBuf ++ src).take 4) % 2^31))),
                    f.inBuf.drop (4 + readLe32 ((f.inBuf ++ src).take 4) % 2^31)⟩)
                    (cap - f.pending.length)
                    (src.drop ((4 + readLe32 ((f.inBuf ++ src).take 4) % 2^31) - f.inBuf.length)) with
                | error e => rw [hrec] at hgo; exact absurd hgo (by simp)
                | ok res =>
                  obtain ⟨st2, w2, r2, h2x⟩ := res
                  rw [hrec] at hgo
                  simp only [Except.ok.injEq, Prod.mk.injEq] at hgo
                  obtain ⟨hst, -, -, hh⟩ := hgo
                  subst hst; subst hh
                  exact ih _ _ _ _ _ _ _ hrec (by intro hcontra; simp at hcontra)

theorem goD_mono (M : BlockCodec) :
    ∀ f1 f2 st cap src res, f1 ≤ f2 → goD M f1 st cap src = .ok res →
      goD M f2 st cap src = .ok res := by
  intro f1
  induction f1 with
  | zero => intro f2 st cap src res hle hgo; exact absurd hgo (by simp [goD])
  | succ g ih =>
    intro f2 st cap src res hle hgo
    have hf2 : f2 = (f2 - 1) + 1 := by omega
    rw [hf2]
    cases st with
    | awaitHeader buf =>
      rw [goD_succ_await] at hgo ⊢
      cases hp : parseHeaderM M (buf ++ src) with
      | incomplete need => rw [hp] at hgo; exact hgo
      | errc c => rw [hp] at hgo; exact absurd hgo (by simp)
      | okHdr info hlen =>
        rw [hp] at hgo
        dsimp only at hgo ⊢
        cases hrec : goD M g (.inFrame ⟨info, [], [], buf.drop hlen⟩) cap
            (src.drop (hlen - buf.length)) with
        | error e => rw [hrec] at hgo; exact absurd hgo (by simp)
        | ok res2 =>
          rw [hrec] at hgo
          rw [ih (f2 - 1) _ _ _ _ (by omega) hrec]
          exact hgo
    | inFrame f =>
      rw [goD_succ_inFrame] at hgo ⊢
      by_cases h1 : cap < f.pending.length
      · rw [if_pos h1] at hgo ⊢; exact hgo
      · rw [if_neg h1] at hgo ⊢
        by_cases h2 : (f.inBuf ++ src).length < 4
        · rw [if_pos h2] at hgo ⊢; exact hgo
        · rw [if_neg h2] at hgo ⊢
          by_cases h3 : readLe32 ((f.inBuf ++ src).take 4) = 0
          · rw [if_pos h3] at hgo ⊢
            by_cases h4 : f.info.contentChecksum
            · rw [if_pos h4] at hgo ⊢
              by_cases h5 : (f.inBuf ++ src).length < 8
              · rw [if_pos h5] at hgo ⊢; exact hgo
              · rw [if_neg h5] at hgo ⊢
                by_cases h6 : readLe32 (((f.inBuf ++ src).drop 4).take 4) ≠
                    M.cchk f.decoded % 2^32
                · rw [if_pos h6] at hgo; exact absurd hgo (by simp)
                · rw [if_neg h6] at hgo ⊢; exact hgo
            · rw [if_neg h4] at hgo ⊢; exact hgo
          · rw [if_neg h3] at hgo ⊢
            by_cases h7 : readLe32 ((f.inBuf ++ src).take 4) % 2^31 = 0
            · rw [if_pos h7] at hgo; exact absurd hgo (by simp)
            · rw [if_neg h7] at hgo ⊢
              by_cases h8 : (f.inBuf ++ src).length < 4 +
                  readLe32 ((f.inBuf ++ src).take 4) % 2^31
              · rw [if_pos h8] at hgo ⊢; exact hgo
              · rw [if_neg h8] at hgo ⊢
                cases hrec : goD M g (.inFrame ⟨f.info,
                    f.decoded ++ (if 2^31 ≤ readLe32 ((f.inBuf ++ src).take 4) then
                        ((f.inBuf ++ src).drop 4).take (readLe32 ((f.inBuf ++ src).take 4) % 2^31)
                      else M.decomp (if f.info.blockModeLinked then f.decoded else [])
                        (((f.inBuf ++ src).drop 4).take (readLe32 ((f.inBuf ++ src).take 4) % 2^31))),
                    (if 2^31 ≤ readLe32 ((f.inBuf ++ src).take 4) then
                        ((f.inBuf ++ src).drop 4).take (readLe32 ((f.inBuf ++ src).take 4) % 2^31)
                      else M.decomp (if f.info.blockModeLinked then f.decoded else [])
                        (((f.inBuf ++ src).drop 4).take (readLe32 ((f.inBuf ++ src).take 4) % 2^31))),
                    f.inBuf.drop (4 + readLe32 ((f.inBuf ++ src).take 4) % 2^31)⟩)
                    (cap - f.pending.length)
                    (src.drop ((4 + readLe32 ((f.inBuf ++ src).take 4) % 2^31) - f.inBuf.length)) with
                | error e => rw [hrec] at hgo; exact absurd hgo (by simp)
                | ok res2 =>
                  rw [hrec] at hgo
                  rw [ih (f2 - 1) _ _ _ _ (by omega) hrec]
                  exact hgo

theorem parseHeaderM_okHdr_ext (M : BlockCodec) (l extra : List Nat) (info : FrameInfo)
    (hlen : Nat) (h : parseHeaderM M l = .okHdr info hlen) :
    parseHeaderM M (l ++ extra) = .okHdr info hlen := by
  have hle := parseHeaderM_okHdr_le M l info hlen h
  unfold parseHeaderM at h ⊢
  by_cases h7 : l.length < 7
  · rw [if_pos h7] at h; exact absurd h (by simp)
  · rw [if_neg h7] at h
    rw [if_neg (by rw [List.length_append]; omega)]
    have htk4 : (l ++ extra).take 4 = l.take 4 := List.take_append_of_le_length (by omega)
    rw [htk4]
    by_cases hm : l.take 4 ≠ lz4Magic
    · rw [if_pos hm] at h; exact absurd h (by simp)
    · rw [if_neg hm] at h
      rw [if_neg hm]
      have hg4 : (l ++ extra).getD 4 0 = l.getD 4 0 := by
        simp only [List.getD]
        rw [List.get?_append (by omega)]
      rw [hg4]
      by_cases hv : l.getD 4 0 / 64 ≠ 1
      · rw [if_pos hv] at h; exact absurd h (by simp)
      · rw [if_neg hv] at h
        rw [if_neg hv]
        set q : Nat := if (l.getD 4 0 / 8 % 2 == 1) = true then 15 else 7 with hq
        have hq7 : 7 ≤ q ∧ q ≤ 15 := by
          rw [hq]
          by_cases hb : (l.getD 4 0 / 8 % 2 == 1) = true
          · rw [if_pos hb]; omega
          · rw [if_neg hb]; omega
        by_cases hl : l.length < q
        · rw [if_pos hl] at h; exact absurd h (by simp)
        · rw [if_neg hl] at h
          rw [if_neg (by rw [List.length_append]; omega)]
          have hg5 : (l ++ extra).getD 5 0 = l.getD 5 0 := by
            simp only [List.getD]
            rw [List.get?_append (by omega)]
          rw [hg5]
          by_cases hbd : l.getD 5 0 / 16 < 4 ∨ 7 < l.getD 5 0 / 16
          · rw [if_pos hbd] at h; exact absurd h (by simp)
          · rw [if_neg hbd] at h
            rw [if_neg hbd]
            have hghc : (l ++ extra).getD (q - 1) 0 = l.getD (q - 1) 0 := by
              simp only [List.getD]
              rw [List.get?_append (by omega)]
            have hdesc : ((l ++ extra).drop 4).take (q - 5) = (l.drop 4).take (q - 5) := by
              rw [List.drop_append_of_le_length (by omega),
                List.take_append_of_le_length (by rw [List.length_drop]; omega)]
            rw [hghc, hdesc]
            by_cases hck : l.getD (q - 1) 0 ≠ M.hchk ((l.drop 4).take (q - 5)) % 256
            · rw [if_pos hck] at h; exact absurd h (by simp)
            · rw [if_neg hck] at h
              rw [if_neg hck]
              rw [← h]
              by_cases hb : (l.getD 4 0 / 8 % 2 == 1) = true
              · have hq15 : q = 15 := by rw [hq, if_pos hb]
                have hrd : ((l ++ extra).drop 6).take 8 = (l.drop 6).take 8 := by
                  rw [List.drop_append_of_le_length (by omega),
                    List.take_append_of_le_length (by rw [List.length_drop]; omega)]
                simp only [hb, if_true, ite_true, hrd]
              · simp only [hb, Bool.false_eq_true, if_false, ite_false]

theorem goD_ext (M : BlockCodec) :
    ∀ fuel st cap src extra st' w r h, goD M fuel st cap src = .ok (st', w, r, h) →
      (h = 0 ∨ r < src.length) →
      goD M fuel st cap (src ++ extra) = .ok (st', w, r, h) := by
  intro fuel
  induction fuel with
  | zero => intro st cap src extra st' w r h hgo _; exact absurd hgo (by simp [goD])
  | succ g ih =>
    intro st cap src extra st' w r h hgo hcond
    cases st with
    | awaitHeader buf =>
      rw [goD_succ_await] at hgo ⊢
      cases hp : parseHeaderM M (buf ++ src) with
      | incomplete need =>
        rw [hp] at hgo
        simp only [Except.ok.injEq, Prod.mk.injEq] at hgo
        obtain ⟨-, -, hr, hh⟩ := hgo
        have hpos := parseHeaderM_incomplete_pos M (buf ++ src) need hp
        omega
      | errc c => rw [hp] at hgo; exact absurd hgo (by simp)
      | okHdr info hlen =>
        rw [hp] at hgo
        dsimp only at hgo
        obtain ⟨hhl, -⟩ := parseHeaderM_okHdr_le M (buf ++ src) info hlen hp
        have hp2 : parseHeaderM M (buf ++ (src ++ extra)) = .okHdr info hlen := by
          rw [← List.append_assoc]
          exact parseHeaderM_okHdr_ext M (buf ++ src) extra info hlen hp
        rw [hp2]
        dsimp only
        rw [List.length_append] at hhl
        have hsplit : (src ++ extra).drop (hlen - buf.length) =
            src.drop (hlen - buf.length) ++ extra :=
          List.drop_append_of_le_length (by omega)
        rw [hsplit]
        cases hrec : goD M g (.inFrame ⟨info, [], [], buf.drop hlen⟩) cap
            (src.drop (hlen - buf.length)) with
        | error e => rw [hrec] at hgo; exact absurd hgo (by simp)
        | ok res2 =>
          obtain ⟨st2, w2, r2, h2⟩ := res2
          rw [hrec] at hgo
          simp only [Except.ok.injEq, Prod.mk.injEq] at hgo
          obtain ⟨hst, hw, hr, hh⟩ := hgo
          subst hst; subst hw; subst hr; subst hh
          rw [ih _ _ _ _ _ _ _ _ hrec (by rw [List.length_drop]; omega)]
    | inFrame f =>
      rw [goD_succ_inFrame] at hgo ⊢
      rw [show f.inBuf ++ (src ++ extra) = (f.inBuf ++ src) ++ extra from
        (List.append_assoc _ _ _).symm]
      by_cases h1 : cap < f.pending.length
      · rw [if_pos h1] at hgo ⊢; exact hgo
      · rw [if_neg h1] at hgo ⊢
        by_cases h2 : (f.inBuf ++ src).length < 4
        · rw [if_pos h2] at hgo
          simp only [Except.ok.injEq, Prod.mk.injEq] at hgo
          obtain ⟨-, -, hr, hh⟩ := hgo
          omega
        · rw [if_neg h2] at hgo
          rw [if_neg (by rw [List.length_append]; omega)]
          rw [List.take_append_of_le_length (by omega)]
          by_cases h3 : readLe32 ((f.inBuf ++ src).take 4) = 0
          · rw [if_pos h3] at hgo ⊢
            by_cases h4 : f.info.contentChecksum
            · rw [if_pos h4] at hgo ⊢
              by_cases h5 : (f.inBuf ++ src).length < 8
              · rw [if_pos h5] at hgo
                simp only [Except.ok.injEq, Prod.mk.injEq] at hgo
                obtain ⟨-, -, hr, hh⟩ := hgo
                omega
              · rw [if_neg h5] at hgo
                rw [if_neg (by rw [List.length_append]; omega)]
                rw [List.drop_append_of_le_length (by omega),
                  List.take_append_of_le_length
                    (show (4 : Nat) ≤ ((f.inBuf ++ src).drop 4).length by
                      rw [List.length_drop]; omega)]
                by_cases h6 : readLe32 (((f.inBuf ++ src).drop 4).take 4) ≠
                    M.cchk f.decoded % 2^32
                · rw [if_pos h6] at hgo; exact absurd hgo (by simp)
                · rw [if_neg h6] at hgo ⊢; exact hgo
            · rw [if_neg h4] at hgo ⊢; exact hgo
          · rw [if_neg h3] at hgo ⊢
            by_cases h7 : readLe32 ((f.inBuf ++ src).take 4) % 2^31 = 0
            · rw [if_pos h7] at hgo; exact absurd hgo (by simp)
            · rw [if_neg h7] at hgo ⊢
              by_cases h8 : (f.inBuf ++ src).length < 4 +
                  readLe32 ((f.inBuf ++ src).take 4) % 2^31
              · rw [if_pos h8] at hgo
                simp only [Except.ok.injEq, Prod.mk.injEq] at hgo
                obtain ⟨-, -, hr, hh⟩ := hgo
                omega
              · rw [if_neg h8] at hgo
                rw [if_neg (by rw [List.length_append]; omega)]
                rw [List.drop_append_of_le_length (by omega),
                  List.take_append_of_le_length
                    (show readLe32 ((f.inBuf ++ src).take 4) % 2^31 ≤
                        ((f.inBuf ++ src).drop 4).length by
                      rw [List.length_drop]; omega)]
                have hconsume : (src ++ extra).drop
                    ((4 + readLe32 ((f.inBuf ++ src).take 4) % 2^31) - f.inBuf.length) =
                    src.drop ((4 + readLe32 ((f.inBuf ++ src).take 4) % 2^31) - f.inBuf.length)
                      ++ extra := by
                  rw [List.length_append] at h8
                  exact List.drop_append_of_le_length (by omega)
                rw [hconsume]
                cases hrec : goD M g (.inFrame ⟨f.info,
                    f.decoded ++ (if 2^31 ≤ readLe32 ((f.inBuf ++ src).take 4) then
                        ((f.inBuf ++ src).drop 4).take (readLe32 ((f.inBuf ++ src).take 4) % 2^31)
                      else M.decomp (if f.info.blockModeLinked then f.decoded else [])
                        (((f.inBuf ++ src).drop 4).take (readLe32 ((f.inBuf ++ src).take 4) % 2^31))),
                    (if 2^31 ≤ readLe32 ((f.inBuf ++ src).take 4) then
                        ((f.inBuf ++ src).drop 4).take (readLe32 ((f.inBuf ++ src).take 4) % 2^31)
                      else M.decomp (if f.info.blockModeLinked then f.decoded else [])
                        (((f.inBuf ++ src).drop 4).take (readLe32 ((f.inBuf ++ src).take 4) % 2^31))),
                    f.inBuf.drop (4 + readLe32 ((f.inBuf ++ src).take 4) % 2^31)⟩)
                    (cap - f.pending.length)
                    (src.drop ((4 + readLe32 ((f.inBuf ++ src).take 4) % 2^31) - f.inBuf.length)) with
                | error e => rw [hrec] at hgo; exact absurd hgo (by simp)
                | ok res2 =>
                  obtain ⟨st2, w2, r2, h2x⟩ := res2
                  rw [hrec] at hgo
                  simp only [Except.ok.injEq, Prod.mk.injEq] at hgo
                  obtain ⟨hst, hw, hr, hh⟩ := hgo
                  subst hst; subst hw; subst hr; subst hh
                  rw [ih _ _ _ _ _ _ _ _ hrec
                    (by rw [List.length_drop]; rw [List.length_append] at h8; omega)]

/-! ## Chunk-loop lemmas (towards C4 and C10) -/

theorem duLoop_stop (M : BlockCodec) (clen fuel : Nat) (st : DStage) (wr : List Nat)
    (rem : Nat) (chunks : List (List Nat)) (inp : List Nat) (hint : Nat)
    (hstop : ¬(0 < inp.length ∧ 0 < hint)) :
    duLoop M clen (fuel + 1) st wr rem chunks inp hint =
      .ok ((if rem < clen then chunks ++ [wr] else chunks), hint, st) := by
  show (if 0 < inp.length ∧ 0 < hint then _ else _) = _
  rw [if_neg hstop]

theorem duLoop_run_full (M : BlockCodec) (clen fuel : Nat) (st : DStage) (wr : List Nat)
    (chunks : List (List Nat)) (inp : List Nat) (hint : Nat)
    (hrun : 0 < inp.length ∧ 0 < hint) :
    duLoop M clen (fuel + 1) st wr 0 chunks inp hint =
      match goD M (inp.length + 2) st clen inp with
      | .error e => .error e
      | .ok (st', w, r, h) =>
        duLoop M clen fuel st' w (clen - w.length) (chunks ++ [wr]) (inp.drop r) h := by
  show (if 0 < inp.length ∧ 0 < hint then _ else _) = _
  rw [if_pos hrun]
  rfl

theorem duLoop_run_part (M : BlockCodec) (clen fuel : Nat) (st : DStage) (wr : List Nat)
    (rem : Nat) (chunks : List (List Nat)) (inp : List Nat) (hint : Nat)
    (hrun : 0 < inp.length ∧ 0 < hint) (hrem : rem ≠ 0) :
    duLoop M clen (fuel + 1) st wr rem chunks inp hint =
      match goD M (inp.length + 2) st rem inp with
      | .error e => .error e
      | .ok (st', w, r, h) =>
        duLoop M clen fuel st' (wr ++ w) (rem - w.length) chunks (inp.drop r) h := by
  show (if 0 < inp.length ∧ 0 < hint then _ else _) = _
  rw [if_pos hrun]
  simp only [if_neg hrem]

theorem duLoop_nil (M : BlockCodec) (clen fuel : Nat) (st : DStage) (wr : List Nat)
    (rem : Nat) (chunks : List (List Nat)) (hint : Nat) (res : List (List Nat) × Nat × DStage)
    (h : duLoop M clen fuel st wr rem chunks [] hint = .ok res) : res.2.1 = hint := by
  cases fuel with
  | zero => exact absurd h (by simp [duLoop])
  | succ g =>
    rw [duLoop_stop M clen g st wr rem chunks [] hint (by simp)] at h
    cases h
    rfl

theorem duLoop_chunks (M : BlockCodec) (clen : Nat) (hclen : 0 < clen) :
    ∀ fuel st wr rem chunks inp hint chunksR hintR stR,
      duLoop M clen fuel st wr rem chunks inp hint = .ok (chunksR, hintR, stR) →
      rem ≤ clen → wr.length = clen - rem →
      (∀ c ∈ chunks, c.length = clen) →
      (∀ c ∈ chunksR.dropLast, c.length = clen) ∧
      (∀ c ∈ chunksR, 0 < c.length ∧ c.length ≤ clen) := by
  intro fuel
  induction fuel with
  | zero =>
    intro st wr rem chunks inp hint chunksR hintR stR hok
    exact absurd hok (by simp [duLoop])
  | succ g ih =>
    intro st wr rem chunks inp hint chunksR hintR stR hok hrem hwr hall
    by_cases hrun : 0 < inp.length ∧ 0 < hint
    · by_cases hr0 : rem = 0
      · subst hr0
        rw [duLoop_run_full M clen g st wr chunks inp hint hrun] at hok
        cases hgo : goD M (inp.length + 2) st clen inp with
        | error e => rw [hgo] at hok; exact absurd hok (by simp)
        | ok res =>
          obtain ⟨st', w, r, h⟩ := res
          rw [hgo] at hok
          have hwle := (goD_w_r_le M _ _ _ _ _ _ _ _ hgo).1
          exact ih st' w (clen - w.length) (chunks ++ [wr]) (inp.drop r) h chunksR hintR stR
            hok (by omega) (by omega)
            (by intro c hc
                rcases List.mem_append.mp hc with hcl | hcr
                · exact hall c hcl
                · simp at hcr; subst hcr; omega)
      · rw [duLoop_run_part M clen g st wr rem chunks inp hint hrun hr0] at hok
        cases hgo : goD M (inp.length + 2) st rem inp with
        | error e => rw [hgo] at hok; exact absurd hok (by simp)
        | ok res =>
          obtain ⟨st', w, r, h⟩ := res
          rw [hgo] at hok
          have hwle := (goD_w_r_le M _ _ _ _ _ _ _ _ hgo).1
          exact ih st' (wr ++ w) (rem - w.length) chunks (inp.drop r) h chunksR hintR stR
            hok (by omega) (by rw [List.length_append]; omega) hall
    · rw [duLoop_stop M clen g st wr rem chunks inp hint hrun] at hok
      simp only [Except.ok.injEq, Prod.mk.injEq] at hok
      obtain ⟨hcr, -, -⟩ := hok
      by_cases hfin : rem < clen
      · rw [if_pos hfin] at hcr
        subst hcr
        constructor
        · rw [List.dropLast_concat]
          exact hall
        · intro c hc
          rcases List.mem_append.mp hc with hcl | hcr2
          · have := hall c hcl; omega
          · simp at hcr2; subst hcr2; omega
      · rw [if_neg hfin] at hcr
        subst hcr
        constructor
        · intro c hc
          exact hall c (List.dropLast_subset _ hc)
        · intro c hc
          have := hall c hc; omega

theorem duLoop_hint (M : BlockCodec) (clen : Nat) :
    ∀ fuel st wr rem chunks inp hint chunksR hintR stR,
      duLoop M clen fuel st wr rem chunks inp hint = .ok (chunksR, hintR, stR) →
      ((0 < inp.length ∧ 0 < hint) ∨ (hint = 0 ↔ st = .awaitHeader [])) →
      (hintR = 0 ↔ stR = .awaitHeader []) := by
  intro fuel
  induction fuel with
  | zero =>
    intro st wr rem chunks inp hint chunksR hintR stR hok
    exact absurd hok (by simp [duLoop])
  | succ g ih =>
    intro st wr rem chunks inp hint chunksR hintR stR hok hdisj
    by_cases hrun : 0 < inp.length ∧ 0 < hint
    · have hinp : inp ≠ [] := by
        intro hnil; rw [hnil] at hrun; simp at hrun
      by_cases hr0 : rem = 0
      · subst hr0
        rw [duLoop_run_full M clen g st wr chunks inp hint hrun] at hok
        cases hgo : goD M (inp.length + 2) st clen inp with
        | error e => rw [hgo] at hok; exact absurd hok (by simp)
        | ok res =>
          obtain ⟨st', w, r, h⟩ := res
          rw [hgo] at hok
          have hP := goD_hint_iff M _ _ _ _ _ _ _ _ hgo (fun _ => hinp)
          exact ih st' w (clen - w.length) (chunks ++ [wr]) (inp.drop r) h chunksR hintR stR
            hok (Or.inr hP)
      · rw [duLoop_run_part M clen g st wr rem chunks inp hint hrun hr0] at hok
        cases hgo : goD M (inp.length + 2) st rem inp with
        | error e => rw [hgo] at hok; exact absurd hok (by simp)
        | ok res =>
          obtain ⟨st', w, r, h⟩ := res
          rw [hgo] at hok
          have hP := goD_hint_iff M _ _ _ _ _ _ _ _ hgo (fun _ => hinp)
          exact ih st' (wr ++ w) (rem - w.length) chunks (inp.drop r) h chunksR hintR stR
            hok (Or.inr hP)
    · rw [duLoop_stop M clen g st wr rem chunks inp hint hrun] at hok
      simp only [Except.ok.injEq, Prod.mk.injEq] at hok
      obtain ⟨-, hh, hs⟩ := hok
      subst hh; subst hs
      rcases hdisj with habs | hiff
      · exact absurd habs hrun
      · exact hiff

theorem duLoop_ext (M : BlockCodec) (clen : Nat) :
    ∀ fuel st wr rem chunks inp hint extra chunksR stR,
      duLoop M clen fuel st wr rem chunks inp hint = .ok (chunksR, 0, stR) →
      duLoop M clen fuel st wr rem chunks (inp ++ extra) hint = .ok (chunksR, 0, stR) := by
  intro fuel
  induction fuel with
  | zero =>
    intro st wr rem chunks inp hint extra chunksR stR hok
    exact absurd hok (by simp [duLoop])
  | succ g ih =>
    intro st wr rem chunks inp hint extra chunksR stR hok
    by_cases hrun : 0 < inp.length ∧ 0 < hint
    · have hrun2 : 0 < (inp ++ extra).length ∧ 0 < hint := by
        rw [List.length_append]; omega
      have hstep : ∀ st2 w r h, goD M (inp.length + 2) st
            (if rem = 0 then clen else rem) inp = .ok (st2, w, r, h) →
          duLoop M clen g st2 ((if rem = 0 then [] else wr) ++ w)
              ((if rem = 0 then clen else rem) - w.length)
              (if rem = 0 then chunks ++ [wr] else chunks) (inp.drop r) h =
            .ok (chunksR, 0, stR) →
          goD M ((inp ++ extra).length + 2) st (if rem = 0 then clen else rem) (inp ++ extra) =
            .ok (st2, w, r, h) ∧
          duLoop M clen g st2 ((if rem = 0 then [] else wr) ++ w)
              ((if rem = 0 then clen else rem) - w.length)
              (if rem = 0 then chunks ++ [wr] else chunks) ((inp ++ extra).drop r) h =
            .ok (chunksR, 0, stR) := by
        intro st2 w r h hgo hrest
        have hrle := (goD_w_r_le M _ _ _ _ _ _ _ _ hgo).2
        by_cases hcase : h = 0 ∨ r < inp.length
        · have hgo2 := goD_ext M _ _ _ _ extra _ _ _ _ hgo hcase
          have hgo3 := goD_mono M _ ((inp ++ extra).length + 2) _ _ _ _
            (by rw [List.length_append]; omega) hgo2
          refine ⟨hgo3, ?_⟩
          rw [List.drop_append_of_le_length hrle]
          exact ih _ _ _ _ _ _ extra _ _ hrest
        · push_neg at hcase
          obtain ⟨hh0, hrge⟩ := hcase
          have hreq : r = inp.length := by omega
          rw [hreq, List.drop_length] at hrest
          have := duLoop_nil M clen g st2 ((if rem = 0 then [] else wr) ++ w)
            ((if rem = 0 then clen else rem) - w.length)
            (if rem = 0 then chunks ++ [wr] else chunks) h _ hrest
          simp at this
          exact absurd this.symm hh0
      by_cases hr0 : rem = 0
      · subst hr0
        rw [duLoop_run_full M clen g st wr chunks inp hint hrun] at hok
        rw [duLoop_run_full M clen g st wr chunks (inp ++ extra) hint hrun2]
        cases hgo : goD M (inp.length + 2) st clen inp with
        | error e => rw [hgo] at hok; exact absurd hok (by simp)
        | ok res =>
          obtain ⟨st2, w, r, h⟩ := res
          rw [hgo] at hok
          have hs := hstep st2 w r h (by simpa using hgo) (by simpa using hok)
          rw [show (if (0:Nat) = 0 then clen else 0) = clen from rfl] at hs
          rw [hs.1]
          simpa using hs.2
      · rw [duLoop_run_part M clen g st wr rem chunks inp hint hrun hr0] at hok
        rw [duLoop_run_part M clen g st wr rem chunks (inp ++ extra) hint hrun2 hr0]
        cases hgo : goD M (inp.length + 2) st rem inp with
        | error e => rw [hgo] at hok; exact absurd hok (by simp)
        | ok res =>
          obtain ⟨st2, w, r, h⟩ := res
          rw [hgo] at hok
          have hs := hstep st2 w r h (by simp only [if_neg hr0]; exact hgo)
            (by simp only [if_neg hr0]; exact hok)
          simp only [if_neg hr0] at hs
          rw [hs.1]
          exact hs.2
    · rw [duLoop_stop M clen g st wr rem chunks inp hint hrun] at hok
      simp only [Except.ok.injEq, Prod.mk.injEq] at hok
      obtain ⟨hc, hh, hs⟩ := hok
      have hh0 : hint = 0 := hh
      rw [duLoop_stop M clen g st wr rem chunks (inp ++ extra) hint (by omega)]
      rw [hc, hh, hs]

/-! ## Claim C4: decompress_update chunk structure -/

/-- C4: every successful `decompress_update` call returns chunks that are
all exactly `chunk_len` bytes except possibly the final chunk of the call,
which is truncated to the bytes actually produced and omitted when empty
(equivalently: every non-final chunk has length `chunk_len` and every
chunk is non-empty and at most `chunk_len` long); the returned input hint
is 0 exactly when the frame has been fully decoded — in the model, when
the context has consumed the end marker (verifying the content checksum
when enabled) and reset to the awaiting-header stage; and a call may
return no chunks at all, only the hint (final conjunct: a concrete call
on a 1-byte input returns an empty chunk list and a positive hint). -/
theorem claim_C4 (M : BlockCodec) (st : DStage) (input : List Nat) (chunkArg : Int)
    (fuel : Nat) (chunksR : List (List Nat)) (hintR : Nat) (stR : DStage)
    (h0 : 0 < chunkArg) (h31 : chunkArg < 2^31)
    (hok : lz4framed_decompress_update M st input chunkArg fuel = .ok (chunksR, hintR, stR)) :
    (∀ c ∈ chunksR.dropLast, c.length = chunkArg.toNat) ∧
    (∀ c ∈ chunksR, 0 < c.length ∧ c.length ≤ chunkArg.toNat) ∧
    (hintR = 0 ↔ stR = .awaitHeader []) ∧
    lz4framed_decompress_update trivM (.awaitHeader []) [9] 5 10 =
      .ok ([], 6, .awaitHeader [9]) := by
  have hcl : chunkLenStore chunkArg = chunkArg.toNat := by
    unfold chunkLenStore
    rw [Int.emod_eq_of_lt (by omega) (by omega)]
  have hclpos : 0 < chunkLenStore chunkArg := by omega
  unfold lz4framed_decompress_update at hok
  by_cases hin : input.length ≤ 0
  · rw [if_pos hin] at hok; exact absurd hok (by simp)
  · rw [if_neg hin] at hok
    rw [if_neg (by omega)] at hok
    cases hdu : duLoop M (chunkLenStore chunkArg) fuel st [] (chunkLenStore chunkArg) [] input 1
      with
    | error e => rw [hdu] at hok; exact absurd hok (by simp)
    | ok res =>
      rw [hdu] at hok
      cases hok
      rw [← hcl]
      obtain ⟨hc1, hc2⟩ := duLoop_chunks M (chunkLenStore chunkArg) hclpos fuel st []
        (chunkLenStore chunkArg) [] input 1 chunksR hintR stR hdu
        (le_refl _) (by simp) (by simp)
      refine ⟨hc1, hc2, ?_, rfl⟩
      exact duLoop_hint M (chunkLenStore chunkArg) fuel st [] (chunkLenStore chunkArg) []
        input 1 chunksR hintR stR hdu (Or.inl ⟨by omega, by omega⟩)

/-- Witness for C4: decoding the complete one-byte frame with
`chunk_len = 5` returns the single (truncated, non-empty) chunk `[97]`
and hint 0 with the context reset. -/
theorem claim_C4_witness :
    (∀ c ∈ ([[97]] : List (List Nat)).dropLast, c.length = (5 : Int).toNat) ∧
    (∀ c ∈ ([[97]] : List (List Nat)), 0 < c.length ∧ c.length ≤ (5 : Int).toNat) ∧
    ((0 : Nat) = 0 ↔ DStage.awaitHeader [] = DStage.awaitHeader []) ∧
    lz4framed_decompress_update trivM (.awaitHeader []) [9] 5 10 =
      .ok ([], 6, .awaitHeader [9]) :=
  claim_C4 trivM (.awaitHeader [])
    [4, 34, 77, 24, 64, 64, 128, 1, 0, 0, 128, 97, 0, 0, 0, 0] 5 20
    [[97]] 0 (.awaitHeader []) (by decide) (by decide) (by rfl)

/-! ## Claim C10: trailing bytes after a completed frame -/

/-- C10: when a `decompress_update` call reaches input hint 0 (frame
complete), any additional trailing bytes appended to the same call's
input change nothing: they are neither consumed by the context nor
reported to the caller — the chunk list, the hint and the final context
state are identical, and the return value carries no consumed-byte
count at all (its type is just chunks, hint and context). -/
theorem claim_C10 (M : BlockCodec) (st : DStage) (input extra : List Nat) (chunkArg : Int)
    (fuel : Nat) (chunksR : List (List Nat)) (stR : DStage)
    (hok : lz4framed_decompress_update M st input chunkArg fuel = .ok (chunksR, 0, stR)) :
    lz4framed_decompress_update M st (input ++ extra) chunkArg fuel =
      .ok (chunksR, 0, stR) := by
  unfold lz4framed_decompress_update at hok ⊢
  by_cases hin : input.length ≤ 0
  · rw [if_pos hin] at hok; exact absurd hok (by simp)
  · rw [if_neg hin] at hok
    rw [if_neg (by rw [List.length_append]; omega)]
    by_cases hcl : chunkLenStore chunkArg = 0
    · rw [if_pos hcl] at hok; exact absurd hok (by simp)
    · rw [if_neg hcl] at hok
      rw [if_neg hcl]
      cases hdu : duLoop M (chunkLenStore chunkArg) fuel st [] (chunkLenStore chunkArg) []
          input 1 with
      | error e => rw [hdu] at hok; exact absurd hok (by simp)
      | ok res =>
        rw [hdu] at hok
        obtain ⟨res1, res2, res3⟩ := res
        simp only [Except.ok.injEq, Prod.mk.injEq] at hok
        obtain ⟨hc, hh, hs⟩ := hok
        subst hc; subst hs
        rw [duLoop_ext M (chunkLenStore chunkArg) fuel st [] (chunkLenStore chunkArg) []
          input 1 extra res1 res3 (by rw [hdu, hh])]

/-- Witness for C10: the complete one-byte frame followed by three
trailing garbage bytes decodes to the same chunks, hint 0 and reset
context as without them. -/
theorem claim_C10_witness :
    lz4framed_decompress_update trivM (.awaitHeader [])
      (([4, 34, 77, 24, 64, 64, 128, 1, 0, 0, 128, 97, 0, 0, 0, 0] : List Nat) ++ [9, 9, 9])
      5 20 = .ok ([[97]], 0, .awaitHeader []) :=
  claim_C10 trivM (.awaitHeader [])
    [4, 34, 77, 24, 64, 64, 128, 1, 0, 0, 128, 97, 0, 0, 0, 0] [9, 9, 9] 5 20
    [[97]] (.awaitHeader []) (by rfl)

/-! ## Full-frame decoding (towards C2, C3, C6) -/

theorem trailerFor_length (M : BlockCodec) (cchk : Bool) (content : List Nat) :
    (trailerFor M cchk content).length = if cchk then 8 else 4 := by
  by_cases h : cchk <;> simp [trailerFor, h, le32]

theorem unitsFor_nil_inv (M : BlockCodec) (linked : Bool) (hist : List Nat)
    (ds : List (List Nat)) (h : unitsFor M linked hist [] ds) : ds = [] := by
  cases ds with
  | nil => rfl
  | cons d t => exact absurd h (by simp [unitsFor])

theorem unitsFor_cons_inv (M : BlockCodec) (linked : Bool) (hist : List Nat)
    (u : List Nat) (us ds : List (List Nat)) (h : unitsFor M linked hist (u :: us) ds) :
    ∃ d ds', ds = d :: ds' ∧ unitIsFor M linked hist d u ∧
      unitsFor M linked (hist ++ d) us ds' := by
  cases ds with
  | nil => exact absurd h (by simp [unitsFor])
  | cons d t => exact ⟨d, t, rfl, h.1, h.2⟩

theorem headNeed_pos (M : BlockCodec) (linked cchk : Bool) (hist : List Nat)
    (us ds : List (List Nat)) (h : unitsFor M linked hist us ds) :
    0 < headNeed us cchk := by
  cases us with
  | nil => by_cases hc : cchk <;> simp [headNeed, hc]
  | cons u t =>
    obtain ⟨d, ds', -, hu, -⟩ := unitsFor_cons_inv M linked hist u t ds h
    have := hu.1
    simp [headNeed]
    omega

theorem flatten_take_drop (ds : List (List Nat)) (m : Nat) :
    (ds.take m).flatten ++ (ds.drop m).flatten = ds.flatten := by
  rw [← List.flatten_append, List.take_append_drop]

theorem goD_run (M : BlockCodec) (info : FrameInfo) :
    ∀ fuel us ds D0 p ib src cap,
      unitsFor M info.blockModeLinked D0 us ds →
      ib ++ src = us.flatten ++ trailerFor M info.contentChecksum (D0 ++ ds.flatten) →
      ib.length < headNeed us info.contentChecksum →
      src.length + 2 ≤ fuel →
      (p.length + ds.flatten.length ≤ cap →
        goD M fuel (.inFrame ⟨info, D0, p, ib⟩) cap src =
          .ok (.awaitHeader [], p ++ ds.flatten, src.length, 0)) ∧
      (cap < p.length + ds.flatten.length →
        ∃ m p' ib' rr,
          goD M fuel (.inFrame ⟨info, D0, p, ib⟩) cap src =
            .ok (.inFrame ⟨info, D0 ++ (ds.take m).flatten, p', ib'⟩,
                 (p ++ ds.flatten).take cap, rr, 4) ∧
          p' ≠ [] ∧
          p' ++ (ds.drop m).flatten = (p ++ ds.flatten).drop cap ∧
          unitsFor M info.blockModeLinked (D0 ++ (ds.take m).flatten) (us.drop m) (ds.drop m) ∧
          ib' ++ src.drop rr = (us.drop m).flatten ++
            trailerFor M info.contentChecksum
              ((D0 ++ (ds.take m).flatten) ++ (ds.drop m).flatten) ∧
          ib'.length < headNeed (us.drop m) info.contentChecksum ∧
          rr ≤ src.length) := by
  intro fuel
  induction fuel with
  | zero =>
    intro us ds D0 p ib src cap hunits hstream hib hfuel
    omega
  | succ g ih =>
    intro us ds D0 p ib src cap hunits hstream hib hfuel
    rw [goD_succ_inFrame]
    dsimp only
    by_cases hblock : cap < p.length
    · rw [if_pos hblock]
      constructor
      · intro hcap
        exact absurd hcap (by omega)
      · intro hcap
        refine ⟨0, p.drop cap, ib, 0, ?_, ?_, ?_, ?_, ?_, ?_, ?_⟩
        · rw [List.take_append_of_le_length (by omega)]
          simp
        · intro hnil
          have := congrArg List.length hnil
          simp at this
          omega
        · simp only [List.take_zero, List.drop_zero, List.flatten_nil, List.append_nil]
          rw [List.drop_append_eq_append_drop, show cap - p.length = 0 from by omega,
            List.drop_zero]
        · simpa using hunits
        · simpa using hstream
        · simpa using hib
        · omega
    · rw [if_neg hblock]
      cases us with
      | nil =>
        have hds : ds = [] := unitsFor_nil_inv M _ _ _ hunits
        subst hds
        rw [List.flatten_nil, List.nil_append, List.append_nil] at hstream
        by_cases hcc : info.contentChecksum
        · have hlen8 : ib.length + src.length = 8 := by
            have := congrArg List.length hstream
            simp only [List.length_append] at this
            rw [this, trailerFor_length, if_pos hcc]
          have hstr : ib ++ src = [0,0,0,0] ++ le32 (M.cchk D0 % 2^32) := by
            rw [hstream]
            simp [trailerFor, hcc]
          rw [hstr]
          have h4 : ¬ (([0,0,0,0] ++ le32 (M.cchk D0 % 2^32)).length < 4) := by
            simp [le32]
          rw [if_neg h4]
          have htk : (([0,0,0,0] ++ le32 (M.cchk D0 % 2^32)).take 4) = [0,0,0,0] := by
            rw [List.take_append_of_le_length (by simp)]
            rfl
          rw [htk]
          rw [if_pos (show readLe32 [0,0,0,0] = 0 from rfl), if_pos hcc]
          rw [if_neg (by simp [le32])]
          have hdrop : (([0,0,0,0] ++ le32 (M.cchk D0 % 2^32)).drop 4) =
              le32 (M.cchk D0 % 2^32) := by
            rw [show (4:Nat) = ([0,0,0,0] : List Nat).length from rfl, List.drop_left]
          rw [hdrop]
          rw [List.take_of_length_le (by simp [le32]),
            readLe32_le32 _ (by omega), if_neg (by simp)]
          constructor
          · intro hcap
            rw [show (8:Nat) - ib.length = src.length from by omega]
            simp
          · intro hcap
            simp only [List.flatten_nil, List.length_nil] at hcap
            exact absurd (by omega : cap < p.length) hblock
        · have hlen4 : ib.length + src.length = 4 := by
            have := congrArg List.length hstream
            simp only [List.length_append] at this
            rw [this, trailerFor_length, if_neg hcc]
          have hstr : ib ++ src = [0,0,0,0] := by
            rw [hstream]
            simp [trailerFor, hcc]
          rw [hstr]
          rw [if_neg (by simp)]
          rw [List.take_of_length_le (by simp)]
          rw [if_pos (show readLe32 [0,0,0,0] = 0 from rfl), if_neg hcc]
          constructor
          · intro hcap
            rw [show (4:Nat) - ib.length = src.length from by omega]
            simp
          · intro hcap
            simp only [List.flatten_nil, List.length_nil] at hcap
            exact absurd (by omega : cap < p.length) hblock
      | cons u us' =>
        obtain ⟨d, ds', hds, hu, hus'⟩ := unitsFor_cons_inv M _ _ _ _ _ hunits
        subst hds
        obtain ⟨hu5, hu_ne0, hu_len, hu_dec, hd_ne⟩ := hu
        have hX : ib ++ src = u ++ (us'.flatten ++
            trailerFor M info.contentChecksum (D0 ++ (d :: ds').flatten)) := by
          rw [hstream, List.flatten_cons, List.append_assoc]
        have hhn : headNeed (u :: us') info.contentChecksum = u.length := rfl
        rw [hhn] at hib
        have hlens : src.length = (u.length - ib.length) +
            (us'.flatten ++ trailerFor M info.contentChecksum
              (D0 ++ (d :: ds').flatten)).length := by
          have := congrArg List.length hX
          simp only [List.length_append] at this ⊢
          omega
        rw [hX]
        have htk4 : (u ++ (us'.flatten ++ trailerFor M info.contentChecksum
            (D0 ++ (d :: ds').flatten))).take 4 = u.take 4 :=
          List.take_append_of_le_length (by omega)
        rw [htk4]
        rw [if_neg (by simp only [List.length_append]; omega)]
        rw [if_neg hu_ne0]
        rw [if_neg (by omega)]
        rw [if_neg (by simp only [List.length_append]; omega)]
        have hpayload : ((u ++ (us'.flatten ++ trailerFor M info.contentChecksum
            (D0 ++ (d :: ds').flatten))).drop 4).take (readLe32 (u.take 4) % 2^31) =
            u.drop 4 := by
          rw [List.drop_append_of_le_length (by omega),
            List.take_append_of_le_length (by rw [List.length_drop]; omega),
            List.take_of_length_le (by rw [List.length_drop]; omega)]
        rw [hpayload]
        have hdec : (if 2^31 ≤ readLe32 (u.take 4) then u.drop 4
            else M.decomp (if info.blockModeLinked then D0 else []) (u.drop 4)) = d := by
          by_cases hst : 2^31 ≤ readLe32 (u.take 4)
          · rw [if_pos hst]
            rw [if_pos hst] at hu_dec
            exact hu_dec
          · rw [if_neg hst]
            rw [if_neg hst] at hu_dec
            exact hu_dec
        rw [hdec]
        rw [← hu_len]
        rw [List.drop_eq_nil_of_le (by omega)]
        have hsd : src.drop (u.length - ib.length) = us'.flatten ++
            trailerFor M info.contentChecksum (D0 ++ (d :: ds').flatten) := by
          have h1 : src = (ib ++ src).drop ib.length := (List.drop_left ib src).symm
          conv_lhs => rw [h1, hX]
          rw [List.drop_drop, show ib.length + (u.length - ib.length) = u.length from by omega,
            List.drop_left]
        rw [hsd]
        have hstream2 : ([] : List Nat) ++ (us'.flatten ++ trailerFor M info.contentChecksum
            (D0 ++ (d :: ds').flatten)) = us'.flatten ++ trailerFor M info.contentChecksum
            ((D0 ++ d) ++ ds'.flatten) := by
          simp [List.flatten_cons, List.append_assoc]
        have hfuel2 : (us'.flatten ++ trailerFor M info.contentChecksum
            (D0 ++ (d :: ds').flatten)).length + 2 ≤ g := by
          omega
        obtain ⟨IH1, IH2⟩ := ih us' ds' (D0 ++ d) d []
          (us'.flatten ++ trailerFor M info.contentChecksum (D0 ++ (d :: ds').flatten))
          (cap - p.length) hus' hstream2
          (headNeed_pos M info.blockModeLinked info.contentChecksum (D0 ++ d) us' ds' hus')
          hfuel2
        constructor
        · intro hcap
          rw [List.flatten_cons, List.length_append] at hcap
          have hle1 : d.length + ds'.flatten.length ≤ cap - p.length := by omega
          rw [IH1 hle1]
          dsimp only
          rw [hlens, List.flatten_cons]
        · intro hcap
          rw [List.flatten_cons, List.length_append] at hcap
          have hlt1 : cap - p.length < d.length + ds'.flatten.length := by omega
          obtain ⟨m', p', ib', rr', heq, hp', hdrop', hunits', hstream3, hib3, hrr'⟩ :=
            IH2 hlt1
          have hple : p.take cap = p := List.take_of_length_le (by omega)
          have hpd : p.drop cap = [] := List.drop_eq_nil_of_le (by omega)
          have hdd : src.drop (u.length - ib.length + rr') =
              (us'.flatten ++ trailerFor M info.contentChecksum
                (D0 ++ (d :: ds').flatten)).drop rr' := by
            rw [← hsd, List.drop_drop]
          refine ⟨m' + 1, p', ib', (u.length - ib.length) + rr', ?_, hp', ?_, ?_, ?_, ?_, ?_⟩
          · rw [heq]
            dsimp only
            conv_rhs => rw [List.take_succ_cons, List.flatten_cons, List.flatten_cons,
              List.take_append_eq_append_take, hple, ← List.append_assoc]
          · rw [List.drop_succ_cons, hdrop', List.flatten_cons]
            conv_rhs => rw [List.drop_append_eq_append_drop, hpd, List.nil_append]
          · simp only [List.take_succ_cons, List.drop_succ_cons, List.flatten_cons,
              ← List.append_assoc]
            exact hunits'
          · simp only [List.drop_succ_cons, List.take_succ_cons, List.flatten_cons,
              ← List.append_assoc]
            rw [hdd]
            exact hstream3
          · rw [List.drop_succ_cons]
            exact hib3
          · omega
theorem contentParts_spec (M : BlockCodec) (lvl : Int) (linked : Bool) (bs : Nat)
    (hbs : 0 < bs) (h31 : bs < 2^31) (b : List Nat) :
    unitsFor M linked [] (contentParts M lvl linked bs b).1 (contentParts M lvl linked bs b).2 ∧
    (contentParts M lvl linked bs b).2.flatten = b := by
  obtain ⟨h1, h2, h3⟩ := emitBL_decomp M lvl linked bs b.length [] b (le_refl _)
  have hu := emitBL_unitsFor M lvl linked bs h31 b.length [] b (le_refl _)
  rw [List.nil_append] at h2
  unfold contentParts
  dsimp only
  by_cases hrem : (emitBL M lvl linked bs b.length [] b).2.2.2 = []
  · rw [if_pos hrem, if_pos hrem, List.append_nil, List.append_nil]
    refine ⟨hu, ?_⟩
    conv_rhs => rw [← h1]
    rw [hrem, List.append_nil]
  · rw [if_neg hrem, if_neg hrem]
    constructor
    · refine unitsFor_append M linked _ _ _ _ [] hu ?_
      rw [List.nil_append, ← h2]
      refine ⟨?_, trivial⟩
      exact enc_unitIsFor M lvl linked _ _ hrem (by have := h3 hbs; omega)
    · rw [List.flatten_append, List.flatten_cons, List.flatten_nil, List.append_nil]
      exact h1

theorem decompressLoop_succ (M : BlockCodec) (cs fuel : Nat) (st : DStage) (wr : List Nat)
    (len rem : Nat) (inp : List Nat) (hint : Nat) (allocs : List Nat) (warns : Nat) :
    decompressLoop M cs (fuel + 1) st wr len rem inp hint allocs warns =
      if hint = 0 then .ok (wr, allocs, warns)
      else
        match goD M (inp.length + 2) st rem inp with
        | .error e => .error e
        | .ok (st', w, r, h) =>
          if h = 0 then .ok (wr ++ w, allocs, warns)
          else if 0 < (inp.drop r).length then
            decompressLoop M cs fuel st' (wr ++ w) (2 * len) ((rem - w.length) + len)
              (inp.drop r) h (allocs ++ [2 * len]) (if 0 < cs then warns + 1 else warns)
          else decompressLoop M cs fuel st' (wr ++ w) len (rem - w.length) (inp.drop r) h
            allocs warns := rfl

theorem allocs_chain (allocs : List Nat) (len k : Nat) :
    (allocs ++ [2 * len]) ++ (List.range k).map (fun i => 2 ^ (i + 1) * (2 * len)) =
      allocs ++ (List.range (k + 1)).map (fun i => 2 ^ (i + 1) * len) := by
  rw [List.append_assoc]
  congr 1
  rw [List.range_succ_eq_map, List.map_cons, List.map_map,
    show (2 : Nat) ^ (0 + 1) * len = 2 * len from by ring, List.singleton_append]
  congr 1
  apply List.map_congr_left
  intro i _
  show 2 ^ (i + 1) * (2 * len) = 2 ^ (i + 1 + 1) * len
  ring

theorem stream_rest_ne_nil (M : BlockCodec) (linked cchk : Bool) (D0 : List Nat)
    (us ds : List (List Nat)) (ib rest X : List Nat)
    (hu : unitsFor M linked D0 us ds)
    (hs : ib ++ rest = us.flatten ++ trailerFor M cchk X)
    (hib : ib.length < headNeed us cchk) : rest ≠ [] := by
  intro hrn
  subst hrn
  rw [List.append_nil] at hs
  have hlen := congrArg List.length hs
  rw [List.length_append, trailerFor_length] at hlen
  cases us with
  | nil =>
    rw [show headNeed [] cchk = if cchk then 8 else 4 from rfl] at hib
    rw [List.flatten_nil] at hlen
    by_cases hc : cchk
    · rw [if_pos hc] at hib hlen
      simp at hlen
      omega
    · rw [if_neg hc] at hib hlen
      simp at hlen
      omega
  | cons u t =>
    obtain ⟨d, ds', -, huif, -⟩ := unitsFor_cons_inv M linked D0 u t ds hu
    rw [show headNeed (u :: t) cchk = u.length from rfl] at hib
    rw [List.flatten_cons, List.length_append] at hlen
    by_cases hc : cchk
    · rw [if_pos hc] at hlen
      omega
    · rw [if_neg hc] at hlen
      omega

theorem loop_run (M : BlockCodec) (cs : Nat) (info : FrameInfo) :
    ∀ fuel us ds D0 p ib src rem len hint wr allocs warns,
      unitsFor M info.blockModeLinked D0 us ds →
      ib ++ src = us.flatten ++ trailerFor M info.contentChecksum (D0 ++ ds.flatten) →
      ib.length < headNeed us info.contentChecksum →
      hint ≠ 0 →
      1 ≤ len →
      1 ≤ rem →
      p.length + ds.flatten.length + 1 ≤ fuel →
      ∃ k,
        decompressLoop M cs fuel (.inFrame ⟨info, D0, p, ib⟩) wr len rem src hint allocs warns =
          .ok (wr ++ p ++ ds.flatten,
               allocs ++ (List.range k).map (fun i => 2 ^ (i + 1) * len),
               warns + (if 0 < cs then k else 0)) ∧
        (p.length + ds.flatten.length ≤ rem → k = 0) ∧
        (rem < p.length + ds.flatten.length → 1 ≤ k) := by
  intro fuel
  induction fuel with
  | zero =>
    intro us ds D0 p ib src rem len hint wr allocs warns _ _ _ _ _ _ hfuel
    omega
  | succ g ih =>
    intro us ds D0 p ib src rem len hint wr allocs warns hunits hstream hib hhint hlen1 hrem1
      hfuel
    rw [decompressLoop_succ, if_neg hhint]
    by_cases hO : p.length + ds.flatten.length ≤ rem
    · obtain ⟨C1, -⟩ :=
        goD_run M info (src.length + 2) us ds D0 p ib src rem hunits hstream hib (by omega)
      rw [C1 hO]
      dsimp only
      rw [if_pos rfl]
      refine ⟨0, ?_, fun _ => rfl, fun hlt => absurd hO (by omega)⟩
      simp [List.append_assoc]
    · push_neg at hO
      obtain ⟨-, C2⟩ :=
        goD_run M info (src.length + 2) us ds D0 p ib src rem hunits hstream hib (by omega)
      obtain ⟨m, p', ib', rr, heq, hp', hdrop', hunits', hstream', hib', hrr⟩ := C2 hO
      rw [heq]
      dsimp only
      rw [if_neg (by omega : ¬ (4 : Nat) = 0)]
      have hrest : src.drop rr ≠ [] :=
        stream_rest_ne_nil M info.blockModeLinked info.contentChecksum
          (D0 ++ (ds.take m).flatten) (us.drop m) (ds.drop m) ib' (src.drop rr) _
          hunits' hstream' hib'
      rw [if_pos (List.length_pos.mpr hrest)]
      have hwlen : ((p ++ ds.flatten).take rem).length = rem := by
        rw [List.length_take, List.length_append]
        omega
      rw [hwlen, Nat.sub_self, Nat.zero_add]
      have hO' : p'.length + (ds.drop m).flatten.length = p.length + ds.flatten.length - rem := by
        have h := congrArg List.length hdrop'
        rw [List.length_append, List.length_drop, List.length_append] at h
        omega
      obtain ⟨k', hk', hk0', hk1'⟩ :=
        ih (us.drop m) (ds.drop m) (D0 ++ (ds.take m).flatten) p' ib' (src.drop rr) len
          (2 * len) 4 (wr ++ (p ++ ds.flatten).take rem) (allocs ++ [2 * len])
          (if 0 < cs then warns + 1 else warns) hunits' hstream' hib' (by omega) (by omega)
          (by omega) (by omega)
      rw [hk', allocs_chain]
      have hwarns : (if 0 < cs then warns + 1 else warns) + (if 0 < cs then k' else 0) =
          warns + (if 0 < cs then k' + 1 else 0) := by
        by_cases hcs : 0 < cs <;> simp [hcs]
        omega
      rw [hwarns]
      have hbytes : (wr ++ (p ++ ds.flatten).take rem) ++ p' ++ (ds.drop m).flatten =
          wr ++ p ++ ds.flatten := by
        rw [List.append_assoc (wr ++ (p ++ ds.flatten).take rem) p' ((ds.drop m).flatten),
          hdrop', List.append_assoc wr, List.take_append_drop, ← List.append_assoc]
      rw [hbytes]
      exact ⟨k' + 1, rfl, fun hle => absurd hle (by omega), fun _ => by omega⟩
theorem decompress_run_gen (M : BlockCodec) (bid : Int) (linked cchk : Bool) (cs : Nat)
    (us ds : List (List Nat)) (b : List Nat) (buffer_size : Int) (fuel : Nat)
    (hv : valid_lz4f_block_size_id bid = true) (hcs : cs < 2^64) (hbs : 0 < buffer_size)
    (hunits : unitsFor M linked [] us ds) (hflat : ds.flatten = b)
    (hfuel : b.length + 1 ≤ fuel) :
    ∃ k,
      lz4framed_decompress M
          (headerBytes M bid linked cchk cs ++ (us.flatten ++ trailerFor M cchk b))
          buffer_size fuel =
        .ok (b,
             (if 0 < cs then cs
              else max buffer_size.toNat (us.flatten ++ trailerFor M cchk b).length) ::
               (List.range k).map (fun i => 2 ^ (i + 1) *
                 (if 0 < cs then cs
                  else max buffer_size.toNat (us.flatten ++ trailerFor M cchk b).length)),
             if 0 < cs then k else 0) ∧
      (b.length ≤ (if 0 < cs then cs
          else max buffer_size.toNat (us.flatten ++ trailerFor M cchk b).length) → k = 0) ∧
      ((if 0 < cs then cs
          else max buffer_size.toNat (us.flatten ++ trailerFor M cchk b).length) < b.length →
        1 ≤ k) := by
  have hinp : ¬ (headerBytes M bid linked cchk cs ++
      (us.flatten ++ trailerFor M cchk b)).length ≤ 0 := by
    rw [List.length_append, headerBytes_length]
    unfold headerLen
    by_cases h0 : 0 < cs <;> simp [h0]
  have hgfi : LZ4F_getFrameInfoM M (.awaitHeader [])
      (headerBytes M bid linked cchk cs ++ (us.flatten ++ trailerFor M cchk b)) =
      .ok (⟨cs, effBlockId bid, linked, cchk⟩, headerLen cs, 4,
           .inFrame ⟨⟨cs, effBlockId bid, linked, cchk⟩, [], [], []⟩) := by
    unfold LZ4F_getFrameInfoM
    dsimp only
    rw [List.nil_append, parseHeaderM_headerBytes M bid linked cchk cs hv hcs _]
    simp only [List.length_nil, Nat.sub_zero, List.drop_nil]
  have hdropinp : (headerBytes M bid linked cchk cs ++
      (us.flatten ++ trailerFor M cchk b)).drop (headerLen cs) =
      us.flatten ++ trailerFor M cchk b := by
    rw [← headerBytes_length M bid linked cchk cs, List.drop_left]
  have hL1 : 1 ≤ (if 0 < cs then cs
      else max buffer_size.toNat (us.flatten ++ trailerFor M cchk b).length) := by
    by_cases h0 : 0 < cs
    · rw [if_pos h0]
      omega
    · rw [if_neg h0]
      exact le_trans (by omega) (le_max_left _ _)
  have hstream : ([] : List Nat) ++ (us.flatten ++ trailerFor M cchk b) =
      us.flatten ++ trailerFor M cchk (([] : List Nat) ++ ds.flatten) := by
    rw [List.nil_append, List.nil_append, hflat]
  obtain ⟨k, hk, hk0, hk1⟩ :=
    loop_run M cs ⟨cs, effBlockId bid, linked, cchk⟩ fuel us ds [] [] []
      (us.flatten ++ trailerFor M cchk b)
      (if 0 < cs then cs else max buffer_size.toNat (us.flatten ++ trailerFor M cchk b).length)
      (if 0 < cs then cs else max buffer_size.toNat (us.flatten ++ trailerFor M cchk b).length)
      4 [] [if 0 < cs then cs
            else max buffer_size.toNat (us.flatten ++ trailerFor M cchk b).length] 0
      hunits hstream (headNeed_pos M linked cchk [] us ds hunits) (by omega) hL1 hL1
      (by simp only [List.length_nil, Nat.zero_add, hflat]; omega)
  refine ⟨k, ?_,
    fun h => hk0 (by simp only [List.length_nil, Nat.zero_add, hflat]; exact h),
    fun h => hk1 (by simp only [List.length_nil, Nat.zero_add, hflat]; exact h)⟩
  unfold lz4framed_decompress
  rw [if_neg hinp, if_neg (by omega), hgfi]
  dsimp only
  rw [hdropinp, hk]
  dsimp only
  rw [List.nil_append, List.nil_append, hflat, List.singleton_append, Nat.zero_add]

theorem decompress_frame_run (M : BlockCodec) (pf : Prefs) (cs : Nat) (b : List Nat)
    (buffer_size : Int) (fuel : Nat)
    (hv : valid_lz4f_block_size_id pf.blockSizeID = true)
    (hcs : cs < 2^64) (hbs : 0 < buffer_size) (hfuel : b.length + 1 ≤ fuel) :
    ∃ k,
      lz4framed_decompress M (frameBytes M pf cs b) buffer_size fuel =
        .ok (b,
             initAlloc M pf cs b buffer_size ::
               (List.range k).map (fun i => 2 ^ (i + 1) * initAlloc M pf cs b buffer_size),
             if 0 < cs then k else 0) ∧
      (b.length ≤ initAlloc M pf cs b buffer_size → k = 0) ∧
      (initAlloc M pf cs b buffer_size < b.length → 1 ≤ k) := by
  have hfb : frameBytes M pf cs b =
      headerBytes M pf.blockSizeID pf.blockModeLinked pf.contentChecksum cs ++
        ((contentParts M pf.level pf.blockModeLinked
            (lz4f_block_size_from_id pf.blockSizeID) b).1.flatten ++
          trailerFor M pf.contentChecksum b) := by
    unfold frameBytes
    rw [List.append_assoc]
  have hIA : initAlloc M pf cs b buffer_size =
      (if 0 < cs then cs
       else max buffer_size.toNat
         ((contentParts M pf.level pf.blockModeLinked
             (lz4f_block_size_from_id pf.blockSizeID) b).1.flatten ++
           trailerFor M pf.contentChecksum b).length) := by
    unfold initAlloc
    by_cases h0 : 0 < cs
    · rw [if_pos h0, if_pos h0]
    · rw [if_neg h0, if_neg h0]
      congr 1
      rw [hfb, List.length_append, headerBytes_length]
      omega
  obtain ⟨hbs0, h31⟩ := block_size_pos pf.blockSizeID hv
  obtain ⟨hunits, hflat⟩ := contentParts_spec M pf.level pf.blockModeLinked _ hbs0 h31 b
  obtain ⟨k, hk, hk0, hk1⟩ :=
    decompress_run_gen M pf.blockSizeID pf.blockModeLinked pf.contentChecksum cs _ _ b
      buffer_size fuel hv hcs hbs hunits hflat hfuel
  refine ⟨k, ?_, ?_, ?_⟩
  · rw [hfb, hIA]
    exact hk
  · rw [hIA]
    exact hk0
  · rw [hIA]
    exact hk1
/-- Claim C2: for every frame whose header declares no content length
(`cs = 0`) and every positive `buffer_size`, one-shot decompress makes its
first allocation of exactly `max(buffer_size, input bytes remaining after
the 7-byte header)`, doubles the capacity on each further allocation
(allocation trace `init, 2*init, 4*init, ...`), and returns exactly the
original uncompressed bytes (so writing resumed at the correct offset
after every doubling), with no warning issued. -/
theorem claim_C2 (M : BlockCodec) (pf : Prefs) (b : List Nat) (buffer_size : Int) (fuel : Nat)
    (hv : valid_lz4f_block_size_id pf.blockSizeID = true)
    (hbs : 0 < buffer_size) (hfuel : b.length + 1 ≤ fuel) :
    ∃ k,
      lz4framed_decompress M (frameBytes M pf 0 b) buffer_size fuel =
        .ok (b,
             max buffer_size.toNat ((frameBytes M pf 0 b).length - 7) ::
               (List.range k).map (fun i => 2 ^ (i + 1) *
                 max buffer_size.toNat ((frameBytes M pf 0 b).length - 7)),
             0) := by
  obtain ⟨k, hk, -, -⟩ := decompress_frame_run M pf 0 b buffer_size fuel hv (by omega) hbs hfuel
  have hIA0 : initAlloc M pf 0 b buffer_size =
      max buffer_size.toNat ((frameBytes M pf 0 b).length - 7) := by
    unfold initAlloc headerLen
    rw [if_neg (by omega), if_neg (by omega)]
  rw [hIA0, if_neg (by omega : ¬ (0 : Nat) < 0)] at hk
  exact ⟨k, hk⟩

/-- Witness for C2: the run-length codec on forty 7-bytes with
`buffer_size = 1` exercises the doubling chain. -/
theorem claim_C2_witness :
    valid_lz4f_block_size_id ((⟨4, false, false, false, 0⟩ : Prefs).blockSizeID) = true ∧
    (0 : Int) < 1 ∧ (List.replicate 40 7).length + 1 ≤ 41 ∧
    ∃ k,
      lz4framed_decompress rleM
          (frameBytes rleM ⟨4, false, false, false, 0⟩ 0 (List.replicate 40 7)) 1 41 =
        .ok (List.replicate 40 7,
             max (1 : Int).toNat
                 ((frameBytes rleM ⟨4, false, false, false, 0⟩ 0
                   (List.replicate 40 7)).length - 7) ::
               (List.range k).map (fun i => 2 ^ (i + 1) *
                 max (1 : Int).toNat
                   ((frameBytes rleM ⟨4, false, false, false, 0⟩ 0
                     (List.replicate 40 7)).length - 7)),
             0) :=
  ⟨by decide, by decide, by decide,
   claim_C2 rleM ⟨4, false, false, false, 0⟩ (List.replicate 40 7) 1 41 (by decide) (by decide)
     (by decide)⟩

/-- Claim C3: when the frame declares a nonzero content length equal to the
actual uncompressed size, one-shot decompress performs exactly one
allocation, sized to exactly that content length, and decodes to the
original bytes with no reallocation and no warning. -/
theorem claim_C3 (M : BlockCodec) (pf : Prefs) (b : List Nat) (buffer_size : Int) (fuel : Nat)
    (hv : valid_lz4f_block_size_id pf.blockSizeID = true)
    (hb : b ≠ []) (h64 : b.length < 2^64)
    (hbs : 0 < buffer_size) (hfuel : b.length + 1 ≤ fuel) :
    lz4framed_decompress M (frameBytes M pf b.length b) buffer_size fuel =
      .ok (b, [b.length], 0) := by
  obtain ⟨k, hk, hk0, -⟩ :=
    decompress_frame_run M pf b.length b buffer_size fuel hv h64 hbs hfuel
  have hbl : 0 < b.length := List.length_pos.mpr hb
  have hIA : initAlloc M pf b.length b buffer_size = b.length := by
    unfold initAlloc
    rw [if_pos hbl]
  have hk00 : k = 0 := hk0 (by rw [hIA])
  subst hk00
  rw [hIA] at hk
  simpa using hk

/-- Witness for C3: the trivial codec on the one-byte input `[97]` with the
content size declared as its length. -/
theorem claim_C3_witness :
    valid_lz4f_block_size_id ((⟨4, false, false, false, 0⟩ : Prefs).blockSizeID) = true ∧
    ([97] : List Nat) ≠ [] ∧ ([97] : List Nat).length < 2^64 ∧ (0 : Int) < 1 ∧
    ([97] : List Nat).length + 1 ≤ 2 ∧
    lz4framed_decompress trivM
        (frameBytes trivM ⟨4, false, false, false, 0⟩ ([97] : List Nat).length [97]) 1 2 =
      .ok ([97], [([97] : List Nat).length], 0) :=
  ⟨by decide, by decide, by decide, by decide, by decide,
   claim_C3 trivM ⟨4, false, false, false, 0⟩ [97] 1 2 (by decide) (by decide) (by decide)
     (by decide) (by decide)⟩

/-- Claim C6: when the frame declares a nonzero content length that is too
small for the actual decoded output, one-shot decompress does not abort: it
grows the buffer (`k ≥ 1` doublings), surfaces exactly one non-fatal
content-size-mismatch warning per growth (warning count `k`), and still
returns the complete decoded bytes. -/
theorem claim_C6 (M : BlockCodec) (pf : Prefs) (cs : Nat) (b : List Nat) (buffer_size : Int)
    (fuel : Nat) (hv : valid_lz4f_block_size_id pf.blockSizeID = true)
    (hcs0 : 0 < cs) (hlt : cs < b.length) (h64 : cs < 2^64)
    (hbs : 0 < buffer_size) (hfuel : b.length + 1 ≤ fuel) :
    ∃ k, 1 ≤ k ∧
      lz4framed_decompress M (frameBytes M pf cs b) buffer_size fuel =
        .ok (b, cs :: (List.range k).map (fun i => 2 ^ (i + 1) * cs), k) := by
  obtain ⟨k, hk, -, hk1⟩ := decompress_frame_run M pf cs b buffer_size fuel hv h64 hbs hfuel
  have hIA : initAlloc M pf cs b buffer_size = cs := by
    unfold initAlloc
    rw [if_pos hcs0]
  rw [hIA, if_pos hcs0] at hk
  exact ⟨k, hk1 (by rw [hIA]; exact hlt), hk⟩

/-- Witness for C6: the run-length codec on forty 7-bytes with a declared
content size of 1, which forces buffer growth past the declared size. -/
theorem claim_C6_witness :
    valid_lz4f_block_size_id ((⟨4, false, false, false, 0⟩ : Prefs).blockSizeID) = true ∧
    (0 : Nat) < 1 ∧ 1 < (List.replicate 40 7).length ∧ (1 : Nat) < 2^64 ∧ (0 : Int) < 1 ∧
    (List.replicate 40 7).length + 1 ≤ 41 ∧
    ∃ k, 1 ≤ k ∧
      lz4framed_decompress rleM
          (frameBytes rleM ⟨4, false, false, false, 0⟩ 1 (List.replicate 40 7)) 1 41 =
        .ok (List.replicate 40 7, 1 :: (List.range k).map (fun i => 2 ^ (i + 1) * 1), k) :=
  ⟨by decide, by decide, by decide, by decide, by decide, by decide,
   claim_C6 rleM ⟨4, false, false, false, 0⟩ 1 (List.replicate 40 7) 1 41 (by decide)
     (by decide) (by decide) (by decide) (by decide) (by decide)⟩
